import Mathlib

/-!
# Verification of the cellular-automaton cave-generation core

Shallow embedding of the Rust sources `src/ca.rs` and `src/data.rs`
(cell grid, neighborhoods, rules, engine stepping, connected components,
percolation, roughness, tunnel-distance statistics), together with
theorems settling the specification claims.

Machine integers (`usize`, `u8`, `i32`) are modelled as `Nat`/`Int`;
the floating-point aggregation is modelled over `ℚ` (the code's standard
deviation is the square root of the variance we compute, and `√0 = 0`).
-/

namespace Cavegen

/-- A cell (`CACell` in `ca.rs`): one byte of state, `0` = solid,
nonzero = air/alive. We model the byte as a `Nat`; every constructor of
the program only ever writes `0` or `1`. -/
abbrev CACell := Nat

/-- `CACell::is_air`: nonzero means air. -/
def isAirCell (c : CACell) : Bool := c != 0

/-- The grid (`CAContext` in `ca.rs`): three dimensions and a flat cell
buffer indexed by `x + width * (y + height * z)`. -/
structure CAContext where
  width : Nat
  height : Nat
  depth : Nat
  cells : List CACell
deriving Repr, DecidableEq

namespace CAContext

/-- Total number of addressable cells. -/
def numCells (g : CAContext) : Nat := g.width * g.height * g.depth

/-- The buffer really has `width*height*depth` cells, as every
constructor of the program guarantees. -/
def Valid (g : CAContext) : Prop := g.cells.length = g.numCells

instance (g : CAContext) : Decidable g.Valid := by
  unfold Valid; infer_instance

/-- `CAContext::new`: the all-solid grid. -/
def new (width height depth : Nat) : CAContext :=
  { width, height, depth, cells := List.replicate (width * height * depth) 0 }

/-- `CAContext::random`: cells drawn independently from a seeded PRNG.
The PRNG (`SmallRng`) is modelled as an oracle stream of booleans
`bits : Nat → Bool`, the `n`-th draw of `rng.random_bool`. -/
def random (bits : Nat → Bool) (width height depth : Nat) : CAContext :=
  { width, height, depth,
    cells := (List.range (width * height * depth)).map (fun i => if bits i then 1 else 0) }

/-- `CAContext::idx`. -/
def idx (g : CAContext) (x y z : Nat) : Nat := x + g.width * (y + g.height * z)

/-- `CAContext::pos`. -/
def pos (g : CAContext) (index : Nat) : Nat × Nat × Nat :=
  (index % g.width, (index % (g.width * g.height)) / g.width, index / (g.width * g.height))

/-- In-bounds predicate for a coordinate triple. -/
def inBounds (g : CAContext) (x y z : Nat) : Prop :=
  x < g.width ∧ y < g.height ∧ z < g.depth

instance (g : CAContext) (x y z : Nat) : Decidable (g.inBounds x y z) := by
  unfold inBounds; infer_instance

/-- `CAContext::get` (the code indexes the buffer, which panics out of
bounds; all verified uses are in bounds, where `getD` agrees). -/
def get (g : CAContext) (x y z : Nat) : CACell := g.cells.getD (g.idx x y z) 0

/-- Cell lookup by flat index (`self[i]` via the `Index` impl). -/
def cellAt (g : CAContext) (i : Nat) : CACell := g.cells.getD i 0

/-- `self[i].is_air()`. -/
def isAirIdx (g : CAContext) (i : Nat) : Bool := isAirCell (g.cellAt i)

/-- `CAContext::total_air_cells`. -/
def total_air_cells (g : CAContext) : Nat :=
  (g.cells.filter (fun c => isAirCell c)).length

/-- `CAContext::total_solid_cells`. -/
def total_solid_cells (g : CAContext) : Nat :=
  (g.cells.filter (fun c => ¬ isAirCell c)).length

end CAContext

/-- A neighborhood (`CANeighborhood`): an ordered list of signed offsets.
The `name` field is irrelevant to the dynamics and omitted. -/
abbrev CANeighborhood := List (Int × Int × Int)

/-- `CANeighborhood::von_neumann`. -/
def vonNeumann : CANeighborhood :=
  [(1, 0, 0), (-1, 0, 0), (0, 1, 0), (0, -1, 0), (0, 0, 1), (0, 0, -1)]

/-- Offsets of the cube `[-r, r]^3` without the origin, in the loop order
of the source (`x` outer, then `y`, then `z`). -/
def cubeOffsets (r : Int) : List (Int × Int × Int) :=
  ((List.range (2 * r.toNat + 1)).map (fun i => (i : Int) - r)).flatMap (fun x =>
    ((List.range (2 * r.toNat + 1)).map (fun i => (i : Int) - r)).flatMap (fun y =>
      (((List.range (2 * r.toNat + 1)).map (fun i => (i : Int) - r)).filterMap (fun z =>
        if x ≠ 0 ∨ y ≠ 0 ∨ z ≠ 0 then some (x, y, z) else none))))

/-- `CANeighborhood::moore`: the 26 offsets at Chebyshev distance 1. -/
def moore : CANeighborhood := cubeOffsets 1

/-- `CANeighborhood::extended_moore`. -/
def extendedMoore (radius : Int) : CANeighborhood := cubeOffsets radius

namespace CAContext

/-- The bounds-check-and-index used throughout `ca.rs`: offset `(dx,dy,dz)`
applied at `(x,y,z)`; skipped if any signed coordinate is negative or any
unsigned coordinate reaches the dimension. Returns the target coordinates. -/
def offsetTarget (g : CAContext) (x y z : Nat) (d : Int × Int × Int) :
    Option (Nat × Nat × Nat) :=
  let nx := (x : Int) + d.1
  let ny := (y : Int) + d.2.1
  let nz := (z : Int) + d.2.2
  if nx < 0 ∨ ny < 0 ∨ nz < 0 then none
  else
    let nx := nx.toNat
    let ny := ny.toNat
    let nz := nz.toNat
    if nx ≥ g.width ∨ ny ≥ g.height ∨ nz ≥ g.depth then none
    else some (nx, ny, nz)

/-- `CAContext::count_air_neighbors`: sums the raw cell state (`cell.0`)
of every in-bounds neighborhood offset. -/
def count_air_neighbors (g : CAContext) (x y z : Nat) (nb : CANeighborhood) : Nat :=
  nb.foldl (fun count d =>
    match g.offsetTarget x y z d with
    | none => count
    | some (nx, ny, nz) => count + g.get nx ny nz) 0

end CAContext

/-- `Axis` from `ca.rs`. -/
inductive Axis | X | Y | Z
deriving Repr, DecidableEq

/-- `CARule`: birth/survival neighbor-count sets (the `name` field is
irrelevant to the dynamics and omitted). -/
structure CARule where
  birth : List Nat
  survival : List Nat
deriving Repr, DecidableEq

/-- `CAConfig`. -/
structure CAConfig where
  neighborhood : CANeighborhood
  rule : CARule

namespace CAContext

/-- The 6 axis-aligned unit offsets, the `dirs` array used by
`connected_components`, `percolates` seeding and the tunnel transform
(textually equal to the von Neumann neighborhood). -/
def dirs6 : List (Int × Int × Int) :=
  [(1, 0, 0), (-1, 0, 0), (0, 1, 0), (0, -1, 0), (0, 0, 1), (0, 0, -1)]

/-- The in-bounds 6-neighbor indices of flat index `i`, in `dirs6` order:
the bounds-check-then-`idx` computation of the BFS loops in the source. -/
def neighborsIdx (g : CAContext) (i : Nat) : List Nat :=
  dirs6.filterMap (fun d =>
    (g.offsetTarget (g.pos i).1 (g.pos i).2.1 (g.pos i).2.2 d).map
      (fun t => g.idx t.1 t.2.1 t.2.2))

/-- The neighbor-scan of one popped index in `connected_components`:
each unvisited in-bounds air neighbor is marked visited and enqueued. -/
def processNb (g : CAContext) (i : Nat) (st : List Bool × List Nat) :
    List Bool × List Nat :=
  (g.neighborsIdx i).foldl (fun vq nidx =>
    if ¬ vq.1.getD nidx true ∧ g.isAirIdx nidx then
      (vq.1.set nidx true, vq.2 ++ [nidx])
    else vq) st

/-- The inner BFS loop of `connected_components` (fuelled; the fuel used
below is proven sufficient, see `bfsAux_measure`). State: visited flags,
FIFO queue (head = front), accumulated component. -/
def bfsAux (g : CAContext) : Nat → List Bool → List Nat → List Nat →
    List Bool × List Nat
  | 0, v, _, comp => (v, comp)
  | _ + 1, v, [], comp => (v, comp)
  | fuel + 1, v, i :: q, comp =>
    let vq := g.processNb i (v, q)
    bfsAux g fuel vq.1 vq.2 (comp ++ [i])

/-- The body of the outer scan of `connected_components`: a visited or
solid index is skipped; an unvisited air index is marked, seeds a BFS,
and the resulting component is appended. -/
def ccStep (g : CAContext) (st : List Bool × List (List Nat)) (i : Nat) :
    List Bool × List (List Nat) :=
  if st.1.getD i true ∨ ¬ g.isAirIdx i then st
  else
    let vc := bfsAux g (g.width * g.height * g.depth + 2) (st.1.set i true) [i] []
    (vc.1, st.2 ++ [vc.2])

/-- `CAContext::connected_components`: scan all indices; each unvisited
air cell seeds a BFS flood fill over 6-connected air cells. -/
def connected_components (g : CAContext) : List (List Nat) :=
  let n := g.width * g.height * g.depth
  ((List.range n).foldl (ccStep g) (List.replicate n false, [])).2

/-- `usize::MAX`, the initial accumulator of the min-fold in `percolates`. -/
def usizeMax : Nat := 2 ^ 64 - 1

/-- The coordinate of a position triple along an axis. -/
def axisCoord (axis : Axis) (p : Nat × Nat × Nat) : Nat :=
  match axis with
  | .X => p.1
  | .Y => p.2.1
  | .Z => p.2.2

/-- `size - 1` along an axis (truncated subtraction models `usize`
subtraction, which in the source panics on a zero dimension; `percolates`
only reaches it through grids holding at least one cell). -/
def axisLimit (g : CAContext) (axis : Axis) : Nat :=
  match axis with
  | .X => g.width - 1
  | .Y => g.height - 1
  | .Z => g.depth - 1

/-- `CAContext::percolates`: some component's min coordinate along the
axis is 0 and its max is `size - 1`. -/
def percolates (g : CAContext) (components : List (List Nat)) (axis : Axis) : Bool :=
  components.any (fun comp =>
    let mm := comp.foldl (fun (mm : Nat × Nat) idx =>
      let v := axisCoord axis (g.pos idx)
      (min mm.1 v, max mm.2 v)) (usizeMax, 0)
    mm.1 == 0 ∧ mm.2 == g.axisLimit axis)

end CAContext

/-- The per-cell transition of `CAEngine::run_iteration`: a pure function
of the pre-step grid `old` at flat index `i` (survival set for air cells,
birth set for solid cells); `u8::from` of the decision. -/
def nextState (cfg : CAConfig) (old : CAContext) (i : Nat) : CACell :=
  let p := old.pos i
  let aliveNeighbors := old.count_air_neighbors p.1 p.2.1 p.2.2 cfg.neighborhood
  let next :=
    if old.isAirIdx i then cfg.rule.survival.contains aliveNeighbors
    else cfg.rule.birth.contains aliveNeighbors
  if next then 1 else 0

/-- `CAEngine`: current grid plus same-shape scratch buffer. -/
structure CAEngine where
  config : CAConfig
  context : CAContext
  buffer : CAContext

namespace CAEngine

/-- `CAEngine::new`: the buffer starts as a clone of the context. -/
def new (config : CAConfig) (context : CAContext) : CAEngine :=
  { config, context, buffer := context }

/-- `CAEngine::run_iteration`: every cell of the scratch buffer is
overwritten, in parallel, with `nextState` of the pre-step grid, then the
two buffers are swapped. The parallel `par_iter_mut().enumerate()` writes
cell `i` as a function of `old` and `i` alone, hence the map over indices. -/
def run_iteration (e : CAEngine) : CAEngine :=
  let newCells := (List.range e.buffer.cells.length).map (nextState e.config e.context)
  { config := e.config
    context := { e.buffer with cells := newCells }
    buffer := e.context }

/-- `CAEngine::run` (the per-iteration logging of the source is a pure
read-only observation that never alters engine state and is omitted). -/
def run : CAEngine → Nat → CAEngine
  | e, 0 => e
  | e, n + 1 => run e.run_iteration n

/-- Sequential reference re-implementation of one step, following the
spec's words: iterate the cell indices in order, writing each next state
into the scratch buffer one at a time (reading only the old grid), then
swap. Used to state the refinement claim about the parallel step. -/
def runIterationSeq (e : CAEngine) : CAEngine :=
  let newCells := (List.range e.buffer.cells.length).foldl
    (fun acc i => acc.set i (nextState e.config e.context i)) e.buffer.cells
  { config := e.config
    context := { e.buffer with cells := newCells }
    buffer := e.context }

end CAEngine

/-! ## Statistics (`data.rs`) -/

/-- Mean with the `len().max(1)` division guard of `data.rs`. -/
def listMean (values : List ℚ) : ℚ := values.sum / (max values.length 1 : Nat)

/-- Population variance with the same guard; the code's standard
deviation is `√(listVar values)`. -/
def listVar (values : List ℚ) : ℚ :=
  (values.map (fun v => (v - listMean values) ^ 2)).sum / (max values.length 1 : Nat)

/-- `DiversityStats::mean_std` (returning the variance in place of its
square root, the standard deviation; the two vanish together). -/
def DiversityStats.mean_std (values : List ℚ) : ℚ × ℚ :=
  (listMean values, listVar values)

/-- The loop body of the roughness neighbor scan: an out-of-bounds or
solid neighbor sets the `solid` flag, an alive neighbor bumps the `air`
count. -/
def roughStep (g : CAContext) (x y z : Nat) (as : Nat × Bool) (d : Int × Int × Int) :
    Nat × Bool :=
  match g.offsetTarget x y z d with
  | none => (as.1, true)
  | some t => if isAirCell (g.get t.1 t.2.1 t.2.2) then (as.1 + 1, as.2) else (as.1, true)

/-- The roughness scan of one solid cell at `(x,y,z)`: fold over the 26
Moore offsets accumulating the alive-neighbor count and the `solid` flag. -/
def roughScan (g : CAContext) (x y z : Nat) : Nat × Bool :=
  (cubeOffsets 1).foldl (roughStep g x y z) (0, false)

/-- The roughness value list of `RoughnessStats::from_context`: triple
loop `z`/`y`/`x`, skipping air cells, keeping `1 - air/26` for every
solid cell whose `solid` flag was set. -/
def roughnessValues (g : CAContext) : List ℚ :=
  (List.range g.depth).flatMap (fun z =>
    (List.range g.height).flatMap (fun y =>
      (List.range g.width).filterMap (fun x =>
        if isAirCell (g.get x y z) then none
        else
          let as := roughScan g x y z
          if as.2 then some (1 - (as.1 : ℚ) / ((cubeOffsets 1).length : Nat)) else none)))

/-- `RoughnessStats` (count, mean, variance; the code's `std` is the
square root of `var`). -/
structure RoughnessStats where
  count : Nat
  mean : ℚ
  var : ℚ

/-- `RoughnessStats::from_context`. -/
def RoughnessStats.from_context (g : CAContext) : RoughnessStats :=
  { count := (roughnessValues g).length
    mean := listMean (roughnessValues g)
    var := listVar (roughnessValues g) }

/-- `i32::MAX`, the distance-field sentinel of `TunnelStats`. -/
def i32Max : Nat := 2 ^ 31 - 1

/-- `components.iter().max_by_key(|c| c.len())`: on ties Rust's
`max_by_key` keeps the **last** maximal element. -/
def maxByLen (comps : List (List Nat)) : Option (List Nat) :=
  comps.foldl (fun acc c =>
    match acc with
    | none => some c
    | some b => if b.length ≤ c.length then some c else some b) none

/-- Whether member `i` has a 6-adjacent neighbor that is out-of-bounds or
solid (the seeding test of `TunnelStats::from_context`, whose `break`
makes it an existence check). -/
def hasSurfaceNeighbor (g : CAContext) (i : Nat) : Bool :=
  CAContext.dirs6.any (fun d =>
    match g.offsetTarget (g.pos i).1 (g.pos i).2.1 (g.pos i).2.2 d with
    | none => true
    | some t => ¬ isAirCell (g.get t.1 t.2.1 t.2.2))

/-- The seeding loop: every member of `largest` with a surface neighbor
gets distance 1 and is enqueued, in member order. The distance field has
one entry per cell, initialized to the `i32::MAX` sentinel. -/
def tunnelSeed (g : CAContext) (largest : List Nat) : List Nat × List Nat :=
  largest.foldl (fun (dq : List Nat × List Nat) idx =>
    if hasSurfaceNeighbor g idx then (dq.1.set idx 1, dq.2 ++ [idx]) else dq)
    (List.replicate g.cells.length i32Max, [])

/-- The relaxation scan of one popped index: each in-bounds air neighbor
whose distance exceeds `dist[idx] + 1` is lowered to it and enqueued. -/
def tunnelRelaxNb (g : CAContext) (idx : Nat) (dq : List Nat × List Nat) :
    List Nat × List Nat :=
  (g.neighborsIdx idx).foldl (fun dq nidx =>
    if g.isAirIdx nidx ∧ dq.1.getD idx 0 + 1 < dq.1.getD nidx 0 then
      (dq.1.set nidx (dq.1.getD idx 0 + 1), dq.2 ++ [nidx])
    else dq) dq

/-- The BFS relaxation loop of `TunnelStats::from_context` (fuelled; the
fuel passed below is proven sufficient). Returns the final distance field. -/
def tunnelBfs (g : CAContext) : Nat → List Nat × List Nat → List Nat
  | 0, dq => dq.1
  | _ + 1, (dist, []) => dist
  | fuel + 1, (dist, idx :: queue) => tunnelBfs g fuel (tunnelRelaxNb g idx (dist, queue))

/-- The final distance field of the tunnel transform for a given largest
component. -/
def tunnelDist (g : CAContext) (largest : List Nat) : List Nat :=
  let dq := tunnelSeed g largest
  tunnelBfs g (2 * dq.1.sum + dq.2.length + 2) dq

/-- The statistics value list: member distances, filtered to `d > 0`
(every entry of the `Nat`-modelled field passes iff it is nonzero). -/
def tunnelValues (g : CAContext) (largest : List Nat) : List ℚ :=
  (largest.map (fun i => ((tunnelDist g largest).getD i 0 : ℚ))).filter (fun d => 0 < d)

/-- `TunnelStats` (mean, variance; the code's `std` is `√var`). -/
structure TunnelStats where
  mean : ℚ
  var : ℚ

/-- `TunnelStats::from_context`. -/
def TunnelStats.from_context (g : CAContext) (comps : List (List Nat)) : TunnelStats :=
  match maxByLen comps with
  | none => { mean := 0, var := 0 }
  | some largest =>
    { mean := listMean (tunnelValues g largest)
      var := listVar (tunnelValues g largest) }

/-- The analysis fields of `RunResults` (floats as `ℚ`, standard
deviations as variances). -/
structure RunResults where
  v_total : Nat
  porosity : ℚ
  n_comp : Nat
  v_max : Nat
  lcr : ℚ
  n_islands : Nat
  percolates_x : Bool
  percolates_y : Bool
  percolates_z : Bool
  surface_voxels : Nat
  roughness_mean : ℚ
  roughness_var : ℚ
  tunnel_radius_mean : ℚ
  tunnel_radius_var : ℚ

/-- `RunResults::from_context`; `mw`, `mh`, `md` are the metadata
dimensions used by the porosity denominator (the orchestration always
passes the grid's own dimensions). `n_islands` is `saturating_sub`,
which truncated `Nat` subtraction models exactly. -/
def RunResults.from_context (mw mh md : Nat) (ctx : CAContext) : RunResults :=
  let components := ctx.connected_components
  let v_total := ctx.total_air_cells
  let n_comp := components.length
  let v_max := ((components.map List.length).maximum).getD 0
  let lcr := if 0 < v_total then (v_max : ℚ) / (v_total : ℚ) else 0
  let rough := RoughnessStats.from_context ctx
  let tunnel := TunnelStats.from_context ctx components
  { v_total
    porosity := (v_total : ℚ) / ((mw * mh * md : Nat) : ℚ)
    n_comp
    v_max
    lcr
    n_islands := n_comp - 1
    percolates_x := ctx.percolates components .X
    percolates_y := ctx.percolates components .Y
    percolates_z := ctx.percolates components .Z
    surface_voxels := rough.count
    roughness_mean := rough.mean
    roughness_var := rough.var
    tunnel_radius_mean := tunnel.mean
    tunnel_radius_var := tunnel.var }

/-! ## Derived notions used to state the claims -/

/-- 6-connected air adjacency on flat indices: both cells in bounds and
alive, and `j` one of the in-bounds 6-neighbors of `i`. -/
def adjAir (g : CAContext) (i j : Nat) : Prop :=
  i < g.numCells ∧ j < g.numCells ∧ g.isAirIdx i = true ∧ g.isAirIdx j = true ∧
    j ∈ g.neighborsIdx i

/-- Reachability through 6-connected alive paths. -/
def reach (g : CAContext) : Nat → Nat → Prop := Relation.ReflTransGen (adjAir g)

/-- The in-bounds targets of a neighborhood's offsets at `(x,y,z)`. -/
def inBoundsTargets (g : CAContext) (x y z : Nat) (nb : CANeighborhood) :
    List (Nat × Nat × Nat) :=
  nb.filterMap (g.offsetTarget x y z)

/-- Sum of the raw cell states over the in-bounds targets (what
`count_air_neighbors` actually computes). -/
def rawNeighborSum (g : CAContext) (x y z : Nat) (nb : CANeighborhood) : Nat :=
  ((inBoundsTargets g x y z nb).map (fun t => g.get t.1 t.2.1 t.2.2)).sum

/-- The **spec's** neighbor count: the number of offsets whose target
lands in bounds and holds an alive cell. -/
def countAliveNbSpec (g : CAContext) (x y z : Nat) (nb : CANeighborhood) : Nat :=
  ((inBoundsTargets g x y z nb).filter (fun t => isAirCell (g.get t.1 t.2.1 t.2.2))).length

/-- Whether applying offset `d` at `(x,y,z)` lands out of bounds or on a
solid cell. -/
def solidOrOOB (g : CAContext) (x y z : Nat) (d : Int × Int × Int) : Bool :=
  match g.offsetTarget x y z d with
  | none => true
  | some t => ¬ isAirCell (g.get t.1 t.2.1 t.2.2)

/-- Whether applying offset `d` at `(x,y,z)` lands out of bounds or on an
alive cell. -/
def airOrOOB (g : CAContext) (x y z : Nat) (d : Int × Int × Int) : Bool :=
  match g.offsetTarget x y z d with
  | none => true
  | some t => isAirCell (g.get t.1 t.2.1 t.2.2)

/-- Whether some 26-Moore neighbor of `(x,y,z)` is out-of-bounds or
solid: the condition under which the roughness loop's `solid` flag ends
up set. -/
def hasSolidOrOOBMoore (g : CAContext) (x y z : Nat) : Bool :=
  (cubeOffsets 1).any (solidOrOOB g x y z)

/-- Whether some 26-Moore neighbor of `(x,y,z)` is out-of-bounds or
**alive** — the qualifying condition the claim (and spec §4.5) states for
surface voxels. -/
def hasAirOrOOBMoore (g : CAContext) (x y z : Nat) : Bool :=
  (cubeOffsets 1).any (airOrOOB g x y z)

/-- All coordinate triples in the roughness scan order (`z` outer, then
`y`, then `x`). -/
def cellEnum (g : CAContext) : List (Nat × Nat × Nat) :=
  (List.range g.depth).flatMap (fun z =>
    (List.range g.height).flatMap (fun y =>
      (List.range g.width).map (fun x => (x, y, z))))

/-- The surface voxels the code actually collects: solid cells with at
least one solid-or-out-of-bounds Moore neighbor. -/
def surfaceVoxelsCode (g : CAContext) : List (Nat × Nat × Nat) :=
  (cellEnum g).filter (fun p =>
    ¬ isAirCell (g.get p.1 p.2.1 p.2.2) ∧ hasSolidOrOOBMoore g p.1 p.2.1 p.2.2)

/-- The surface voxels the claim describes: solid cells with at least
one alive-or-out-of-bounds Moore neighbor. -/
def surfaceVoxelsClaim (g : CAContext) : List (Nat × Nat × Nat) :=
  (cellEnum g).filter (fun p =>
    ¬ isAirCell (g.get p.1 p.2.1 p.2.2) ∧ hasAirOrOOBMoore g p.1 p.2.1 p.2.2)

/-- The claim's per-voxel value `1 - aliveNeighborCount / 26`. -/
def roughnessValueAt (g : CAContext) (p : Nat × Nat × Nat) : ℚ :=
  1 - (countAliveNbSpec g p.1 p.2.1 p.2.2 (cubeOffsets 1) : ℚ) / 26

/-- Chebyshev distance from an in-bounds coordinate to the nearest
out-of-grid position, minus the final step: `min` over the six faces. -/
def chebyshevToBoundary (g : CAContext) (x y z : Nat) : Nat :=
  min (min x (g.width - 1 - x))
    (min (min y (g.height - 1 - y)) (min z (g.depth - 1 - z)))

/-- Alive indices of a grid, as a finset. -/
def airFinset (g : CAContext) : Finset Nat :=
  (Finset.range g.numCells).filter (fun i => g.isAirIdx i = true)

/-- One round of the multi-source expansion used to bound breadth-first
distances: add every in-bounds alive cell 6-adjacent to the set. -/
def expandAir (g : CAContext) (S : Finset Nat) : Finset Nat :=
  S ∪ (Finset.range g.numCells).filter
    (fun y => g.isAirIdx y = true ∧ ∃ x ∈ S, y ∈ g.neighborsIdx x)

/-! ### Concrete test grids -/

/-- All-air grid of the given shape. -/
def allAirGrid (w h d : Nat) : CAContext :=
  { width := w, height := h, depth := d, cells := List.replicate (w * h * d) 1 }

/-- The fully-alive 5×5×5 cube of the tunnel-distance test. -/
def cube5 : CAContext := allAirGrid 5 5 5

/-- The largest (only) component of the fully-alive cube. -/
def cube5Largest : List Nat := (maxByLen cube5.connected_components).getD []

/-- 4×3×3 grid whose alive cells form the single straight line
`{(x,1,1) | x < 4}`, spanning the X axis without touching the Y/Z
boundaries. -/
def lineGrid : CAContext :=
  { width := 4, height := 3, depth := 3,
    cells := (List.range 36).map (fun i => if 16 ≤ i ∧ i < 20 then 1 else 0) }

/-- 2×1×1 grid whose second cell has the (alive) state 2: `is_air` holds,
but the raw byte is not 1. -/
def twoCellGrid : CAContext := { width := 2, height := 1, depth := 1, cells := [0, 2] }

/-! ### Claim conclusions, bundled -/

/-- The claimed properties of `connected_components`: pairwise disjoint
components of mutually 6-reachable alive cells whose union is the full
alive set, with sizes summing to the alive total. -/
def componentsSpec (g : CAContext) : Prop :=
  g.connected_components.Pairwise (fun c d => ∀ x ∈ c, x ∉ d) ∧
  (∀ c ∈ g.connected_components, ∀ x ∈ c,
    g.isAirIdx x = true ∧ ∀ y ∈ c, reach g x y) ∧
  (∀ x, (∃ c ∈ g.connected_components, x ∈ c) ↔
    (x < g.numCells ∧ g.isAirIdx x = true)) ∧
  (g.connected_components.map List.length).sum = g.total_air_cells

/-- The claimed tunnel-transform invariants: every nonempty component has
a surface member; every member of the largest component ends with a
finite distance `1 ≤ d < i32::MAX`; the `d > 0` filter keeps exactly the
member cells. -/
def tunnelSpec (g : CAContext) : Prop :=
  (∀ c ∈ g.connected_components, c ≠ [] → ∃ m ∈ c, hasSurfaceNeighbor g m = true) ∧
  ∃ largest, maxByLen g.connected_components = some largest ∧
    (∀ m ∈ largest, 1 ≤ (tunnelDist g largest).getD m 0 ∧
      (tunnelDist g largest).getD m 0 < i32Max) ∧
    tunnelValues g largest =
      largest.map (fun i => ((tunnelDist g largest).getD i 0 : ℚ)) ∧
    (tunnelValues g largest).length = largest.length

/-- A small concrete configuration used to instantiate engine theorems. -/
def sampleConfig : CAConfig :=
  { neighborhood := vonNeumann, rule := { birth := [1], survival := [0, 1] } }

/-- The invariant of the outer component scan: the visited flags mark
exactly the members of the components found so far, which are pairwise
disjoint, duplicate-free, nonempty, alive, in-bounds, mutually reachable
and closed under 6-connected alive adjacency. -/
def OuterInv (g : CAContext) (v : List Bool) (comps : List (List Nat)) : Prop :=
  v.length = g.numCells ∧
  (∀ x, x < g.numCells → (v.getD x true = true ↔ ∃ c ∈ comps, x ∈ c)) ∧
  comps.Pairwise (fun c d => ∀ x ∈ c, x ∉ d) ∧
  (∀ c ∈ comps, c.Nodup ∧ c ≠ []) ∧
  (∀ c ∈ comps, ∀ x ∈ c, g.isAirIdx x = true ∧ x < g.numCells) ∧
  (∀ c ∈ comps, ∀ x ∈ c, ∀ y ∈ c, reach g x y) ∧
  (∀ c ∈ comps, ∀ x ∈ c, ∀ y ∈ g.neighborsIdx x, g.isAirIdx y = true → y ∈ c)

/-! ## List helper lemmas -/

lemma getD_set_self {α : Type} (l : List α) (i : Nat) (b d : α) (h : i < l.length) :
    (l.set i b).getD i d = b := by
  simp [List.getD_eq_getElem?_getD, List.getElem?_set, h]

lemma getD_set_ne {α : Type} (l : List α) {i j : Nat} (b d : α) (h : i ≠ j) :
    (l.set i b).getD j d = l.getD j d := by
  simp [List.getD_eq_getElem?_getD, List.getElem?_set, h]

lemma getD_eq_default {α : Type} (l : List α) (d : α) {i : Nat} (h : l.length ≤ i) :
    l.getD i d = d := by
  simp [List.getD_eq_getElem?_getD, List.getElem?_eq_none (by simpa using h)]

lemma lt_length_of_getD_ne {α : Type} {l : List α} {d : α} {i : Nat}
    (h : l.getD i d ≠ d) : i < l.length := by
  by_contra hlt
  exact h (getD_eq_default l d (Nat.le_of_not_lt hlt))

lemma getD_replicate {α : Type} (n : Nat) (a d : α) (i : Nat) :
    (List.replicate n a).getD i d = if i < n then a else d := by
  split_ifs with h
  · simp [List.getD_eq_getElem?_getD, List.getElem?_replicate, h]
  · exact getD_eq_default _ _ (by simpa using Nat.le_of_not_lt h)

lemma count_false_set_true (v : List Bool) {i : Nat} (h : v.getD i true = false)
    (hi : i < v.length) : (v.set i true).count false + 1 = v.count false := by
  induction v generalizing i with
  | nil => simp at hi
  | cons a t ih =>
    cases i with
    | zero =>
      simp only [List.getD_cons_zero] at h
      subst h
      simp [List.count_cons]
    | succ j =>
      simp only [List.getD_cons_succ] at h
      have := ih h (by simpa using Nat.lt_of_succ_lt_succ hi)
      simp only [List.set_cons_succ, List.count_cons]
      omega

lemma sum_set_getD (l : List Nat) {i : Nat} (v : Nat) (h : i < l.length) :
    (l.set i v).sum + l.getD i 0 = l.sum + v := by
  induction l generalizing i with
  | nil => simp at h
  | cons a t ih =>
    cases i with
    | zero => simp [List.sum_cons]; omega
    | succ j =>
      have := ih (by simpa using Nat.lt_of_succ_lt_succ h)
      simp only [List.set_cons_succ, List.sum_cons, List.getD_cons_succ]
      omega

namespace CAContext

/-! ## Coordinate lemmas -/

lemma idx_posOf (g : CAContext) (i : Nat) :
    g.idx (g.pos i).1 (g.pos i).2.1 (g.pos i).2.2 = i := by
  unfold idx pos
  simp only
  have h1 : i % g.width = (i % (g.width * g.height)) % g.width :=
    (Nat.mod_mod_of_dvd i ⟨g.height, rfl⟩).symm
  rw [h1]
  rw [Nat.mul_add, ← Nat.add_assoc, Nat.mod_add_div, ← Nat.mul_assoc, Nat.mod_add_div]

lemma pos_lt (g : CAContext) {i : Nat} (hi : i < g.numCells) :
    (g.pos i).1 < g.width ∧ (g.pos i).2.1 < g.height ∧ (g.pos i).2.2 < g.depth := by
  unfold numCells at hi
  have hw : 0 < g.width := by
    rcases Nat.eq_zero_or_pos g.width with h | h
    · simp [h] at hi
    · exact h
  have hh : 0 < g.height := by
    rcases Nat.eq_zero_or_pos g.height with h | h
    · simp [h] at hi
    · exact h
  refine ⟨Nat.mod_lt _ hw, ?_, ?_⟩
  · show (i % (g.width * g.height)) / g.width < g.height
    exact Nat.div_lt_of_lt_mul (Nat.mod_lt _ (Nat.mul_pos hw hh))
  · show i / (g.width * g.height) < g.depth
    exact Nat.div_lt_of_lt_mul hi

lemma idx_lt (g : CAContext) {x y z : Nat}
    (hx : x < g.width) (hy : y < g.height) (hz : z < g.depth) :
    g.idx x y z < g.numCells := by
  unfold idx numCells
  have h1 : y + g.height * z + 1 ≤ g.height * g.depth := by
    have : y + 1 ≤ g.height := hy
    calc y + g.height * z + 1 = (y + 1) + g.height * z := by omega
    _ ≤ g.height + g.height * z := by omega
    _ = g.height * (z + 1) := by ring
    _ ≤ g.height * g.depth := Nat.mul_le_mul_left _ hz
  calc x + g.width * (y + g.height * z)
      < g.width * (y + g.height * z) + g.width := by omega
    _ = g.width * (y + g.height * z + 1) := by ring
    _ ≤ g.width * (g.height * g.depth) := Nat.mul_le_mul_left _ h1
    _ = g.width * g.height * g.depth := by ring

lemma pos_idx (g : CAContext) {x y z : Nat}
    (hx : x < g.width) (hy : y < g.height) :
    g.pos (g.idx x y z) = (x, y, z) := by
  unfold idx pos
  have hmod : (x + g.width * (y + g.height * z)) % g.width = x := by
    rw [Nat.add_mul_mod_self_left, Nat.mod_eq_of_lt hx]
  have hxy : x + g.width * y < g.width * g.height := by
    calc x + g.width * y < g.width * y + g.width := by omega
      _ = g.width * (y + 1) := by ring
      _ ≤ g.width * g.height := Nat.mul_le_mul_left _ hy
  have hmod2 : (x + g.width * (y + g.height * z)) % (g.width * g.height)
      = x + g.width * y := by
    have : x + g.width * (y + g.height * z)
        = (x + g.width * y) + (g.width * g.height) * z := by ring
    rw [this, Nat.add_mul_mod_self_left, Nat.mod_eq_of_lt hxy]
  have hdiv : (x + g.width * (y + g.height * z)) / (g.width * g.height) = z := by
    have : x + g.width * (y + g.height * z)
        = (x + g.width * y) + (g.width * g.height) * z := by ring
    rw [this, Nat.add_mul_div_left _ _ (Nat.mul_pos (by omega) (by omega)),
      Nat.div_eq_of_lt hxy, Nat.zero_add]
  refine Prod.ext ?_ (Prod.ext ?_ ?_)
  · simpa using hmod
  · show (x + g.width * (y + g.height * z)) % (g.width * g.height) / g.width = y
    rw [hmod2, Nat.add_mul_div_left _ _ (by omega : 0 < g.width),
      Nat.div_eq_of_lt hx, Nat.zero_add]
  · simpa using hdiv

lemma offsetTarget_eq_some_iff (g : CAContext) (x y z : Nat) (d : Int × Int × Int)
    (t : Nat × Nat × Nat) :
    g.offsetTarget x y z d = some t ↔
      ((t.1 : Int) = (x : Int) + d.1 ∧ ((t.2.1 : Int) = (y : Int) + d.2.1) ∧
       ((t.2.2 : Int) = (z : Int) + d.2.2) ∧
       t.1 < g.width ∧ t.2.1 < g.height ∧ t.2.2 < g.depth) := by
  obtain ⟨tx, ty, tz⟩ := t
  obtain ⟨dx, dy, dz⟩ := d
  unfold offsetTarget
  dsimp only
  by_cases h1 : (x : Int) + dx < 0 ∨ (y : Int) + dy < 0 ∨ (z : Int) + dz < 0
  · rw [if_pos h1]
    simp only [(by simp : (none : Option (Nat × Nat × Nat)) = some (tx, ty, tz) ↔ False),
      false_iff]
    rintro ⟨e1, e2, e3, -⟩
    omega
  · rw [if_neg h1]
    push_neg at h1
    by_cases h2 : ((x : Int) + dx).toNat ≥ g.width ∨ ((y : Int) + dy).toNat ≥ g.height ∨
        ((z : Int) + dz).toNat ≥ g.depth
    · rw [if_pos h2]
      simp only [(by simp : (none : Option (Nat × Nat × Nat)) = some (tx, ty, tz) ↔ False),
        false_iff]
      rintro ⟨e1, e2, e3, b1, b2, b3⟩
      omega
    · rw [if_neg h2]
      push_neg at h2
      simp only [Option.some_inj, Prod.mk.injEq]
      constructor
      · rintro ⟨rfl, rfl, rfl⟩
        refine ⟨by omega, by omega, by omega, by omega, by omega, by omega⟩
      · rintro ⟨e1, e2, e3, b1, b2, b3⟩
        refine ⟨by omega, by omega, by omega⟩

lemma mem_neighborsIdx_iff (g : CAContext) (i j : Nat) :
    j ∈ g.neighborsIdx i ↔
      j < g.numCells ∧ ∃ d ∈ dirs6,
        ((g.pos j).1 : Int) = (g.pos i).1 + d.1 ∧
        ((g.pos j).2.1 : Int) = (g.pos i).2.1 + d.2.1 ∧
        ((g.pos j).2.2 : Int) = (g.pos i).2.2 + d.2.2 := by
  unfold neighborsIdx
  rw [List.mem_filterMap]
  constructor
  · rintro ⟨d, hd, hmap⟩
    rw [Option.map_eq_some'] at hmap
    obtain ⟨t, ht, rfl⟩ := hmap
    rw [offsetTarget_eq_some_iff] at ht
    obtain ⟨e1, e2, e3, b1, b2, b3⟩ := ht
    have hjlt : g.idx t.1 t.2.1 t.2.2 < g.numCells := g.idx_lt b1 b2 b3
    have hpos : g.pos (g.idx t.1 t.2.1 t.2.2) = (t.1, t.2.1, t.2.2) := g.pos_idx b1 b2
    refine ⟨hjlt, d, hd, ?_, ?_, ?_⟩ <;> rw [hpos] <;> simpa using ‹_›
  · rintro ⟨hj, d, hd, e1, e2, e3⟩
    obtain ⟨b1, b2, b3⟩ := g.pos_lt hj
    refine ⟨d, hd, ?_⟩
    rw [Option.map_eq_some']
    refine ⟨((g.pos j).1, (g.pos j).2.1, (g.pos j).2.2), ?_, ?_⟩
    · rw [offsetTarget_eq_some_iff]
      exact ⟨e1, e2, e3, b1, b2, b3⟩
    · exact g.idx_posOf j

lemma neighborsIdx_symm (g : CAContext) {i j : Nat} (hi : i < g.numCells) :
    j ∈ g.neighborsIdx i → i ∈ g.neighborsIdx j := by
  rw [mem_neighborsIdx_iff g i j, mem_neighborsIdx_iff g j i]
  rintro ⟨-, ⟨dx, dy, dz⟩, hd, e1, e2, e3⟩
  dsimp only at e1 e2 e3
  refine ⟨hi, (-dx, -dy, -dz), ?_,
    (show ((g.pos i).1 : Int) = ↑(g.pos j).1 + -dx by omega),
    (show ((g.pos i).2.1 : Int) = ↑(g.pos j).2.1 + -dy by omega),
    (show ((g.pos i).2.2 : Int) = ↑(g.pos j).2.2 + -dz by omega)⟩
  have hneg : ∀ d ∈ dirs6, (-d.1, -d.2.1, -d.2.2) ∈ dirs6 := by decide
  exact hneg (dx, dy, dz) hd

lemma mem_neighborsIdx_lt (g : CAContext) {i j : Nat} (h : j ∈ g.neighborsIdx i) :
    j < g.numCells := by
  unfold neighborsIdx at h
  rw [List.mem_filterMap] at h
  obtain ⟨d, -, hmap⟩ := h
  rw [Option.map_eq_some'] at hmap
  obtain ⟨t, ht, rfl⟩ := hmap
  rw [offsetTarget_eq_some_iff] at ht
  exact g.idx_lt ht.2.2.2.1 ht.2.2.2.2.1 ht.2.2.2.2.2

end CAContext

lemma adjAir_symm (g : CAContext) : Symmetric (adjAir g) := by
  rintro i j ⟨hi, hj, ai, aj, hn⟩
  exact ⟨hj, hi, aj, ai, g.neighborsIdx_symm hi hn⟩

lemma reach_symm (g : CAContext) {a b : Nat} (h : reach g a b) : reach g b a :=
  Relation.ReflTransGen.symmetric (adjAir_symm g) h

/-! ## The neighbor count (C5) -/

lemma count_air_neighbors_foldl (g : CAContext) (x y z : Nat) (nb : CANeighborhood)
    (a : Nat) :
    nb.foldl (fun count d =>
      match g.offsetTarget x y z d with
      | none => count
      | some (nx, ny, nz) => count + g.get nx ny nz) a
    = a + ((nb.filterMap (g.offsetTarget x y z)).map
        (fun t => g.get t.1 t.2.1 t.2.2)).sum := by
  induction nb generalizing a with
  | nil => simp
  | cons d rest ih =>
    simp only [List.foldl_cons, List.filterMap_cons]
    cases h : g.offsetTarget x y z d with
    | none => simpa [h] using ih a
    | some t =>
      obtain ⟨nx, ny, nz⟩ := t
      simp only [h, List.map_cons, List.sum_cons]
      rw [ih (a + g.get nx ny nz)]
      ring

/-- `count_air_neighbors` is the sum of the raw cell states over the
in-bounds targets of the neighborhood (so it never reads out of bounds,
and ignores out-of-bounds offsets entirely). -/
lemma count_air_neighbors_eq_rawSum (g : CAContext) (x y z : Nat) (nb : CANeighborhood) :
    g.count_air_neighbors x y z nb = rawNeighborSum g x y z nb := by
  unfold CAContext.count_air_neighbors rawNeighborSum inBoundsTargets
  simpa using count_air_neighbors_foldl g x y z nb 0

lemma sum_eq_countP_of_le_one (l : List Nat) (h : ∀ v ∈ l, v ≤ 1) :
    l.sum = (l.filter (fun v => v ≠ 0)).length := by
  induction l with
  | nil => simp
  | cons a t ih =>
    have ha := h a (by simp)
    have ht := ih (fun v hv => h v (by simp [hv]))
    interval_cases a <;> simp [List.filter_cons, ht] <;> omega

lemma getD_le_one {l : List Nat} (h : ∀ v ∈ l, v ≤ 1) (i : Nat) : l.getD i 0 ≤ 1 := by
  rcases Nat.lt_or_ge i l.length with hi | hi
  · rw [List.getD_eq_getElem?_getD, List.getElem?_eq_getElem hi]
    exact h _ (List.getElem_mem hi)
  · rw [getD_eq_default _ _ hi]
    omega

/-- When all cell states are 0 or 1 (as every constructor and engine
step produces), the raw sum is exactly the alive-neighbor count the
spec describes. -/
lemma rawSum_eq_spec (g : CAContext) (hb : ∀ v ∈ g.cells, v ≤ 1)
    (x y z : Nat) (nb : CANeighborhood) :
    rawNeighborSum g x y z nb = countAliveNbSpec g x y z nb := by
  unfold rawNeighborSum countAliveNbSpec
  rw [sum_eq_countP_of_le_one _ (by
    intro v hv
    rw [List.mem_map] at hv
    obtain ⟨t, -, rfl⟩ := hv
    exact getD_le_one hb _)]
  rw [List.filter_map]
  simp only [List.length_map]
  congr 1
  apply List.filter_congr
  intro t _
  by_cases hv : g.get t.1 t.2.1 t.2.2 = 0 <;> simp [isAirCell, Function.comp, hv]

/-- C5, counterexample: the claim fails as stated — `count_air_neighbors`
adds the raw byte of each in-bounds neighbor, so on a grid whose second
cell holds the alive state 2 it returns 2 where only one neighbor offset
lands on an alive cell. -/
theorem claim_C5_counterexample :
    twoCellGrid.count_air_neighbors 0 0 0 vonNeumann = 2 ∧
    countAliveNbSpec twoCellGrid 0 0 0 vonNeumann = 1 := by decide

/-- C5 (amended): `count_air_neighbors(x,y,z,nb)` returns the sum of the
raw cell states over exactly the in-bounds targets of the neighborhood's
offsets (out-of-bounds offsets contribute nothing, with no wraparound or
clamping), which equals the number of in-bounds alive-neighbor offsets
whenever every cell state is 0 or 1 — as all grid constructors and
engine steps produce. -/
theorem claim_C5_amended (g : CAContext) (x y z : Nat) (nb : CANeighborhood) :
    g.count_air_neighbors x y z nb = rawNeighborSum g x y z nb ∧
    ((∀ v ∈ g.cells, v ≤ 1) →
      g.count_air_neighbors x y z nb = countAliveNbSpec g x y z nb) := by
  refine ⟨count_air_neighbors_eq_rawSum g x y z nb, fun hb => ?_⟩
  rw [count_air_neighbors_eq_rawSum g x y z nb]
  exact rawSum_eq_spec g hb x y z nb

/-- C5, witness: the amended theorem instantiated on the 0/1-valued line
grid. -/
theorem claim_C5_witness :
    (∀ v ∈ lineGrid.cells, v ≤ 1) ∧
    lineGrid.count_air_neighbors 0 1 1 vonNeumann =
      countAliveNbSpec lineGrid 0 1 1 vonNeumann :=
  ⟨by decide, (claim_C5_amended lineGrid 0 1 1 vonNeumann).2 (by decide)⟩

/-- C8, counterexample: construction with a zero dimension does not
fail — both constructors silently return the degenerate grid with an
empty cell buffer. -/
theorem claim_C8_counterexample :
    (CAContext.new 0 1 1).cells.length = 0 ∧
    (CAContext.random (fun _ => true) 0 1 1).cells.length = 0 := by
  exact ⟨rfl, rfl⟩

/-- C8 (amended): for every dimension triple containing a zero, both the
all-solid constructor and the seeded random constructor succeed and
return the degenerate grid with zero cells (no rejection occurs). -/
theorem claim_C8_amended (w h d : Nat) (bits : Nat → Bool) (hz : w * h * d = 0) :
    (CAContext.new w h d).cells = [] ∧ (CAContext.random bits w h d).cells = [] := by
  unfold CAContext.new CAContext.random
  simp [hz]

/-- C8, witness: the amended theorem at `0×1×1`. -/
theorem claim_C8_witness :
    0 * 1 * 1 = 0 ∧ (CAContext.new 0 1 1).cells = [] ∧
    (CAContext.random (fun _ => true) 0 1 1).cells = [] :=
  ⟨rfl, claim_C8_amended 0 1 1 (fun _ => true) rfl⟩

/-! ## Empty-input aggregation (C9) -/

lemma listMean_nil : listMean [] = 0 := by simp [listMean]

lemma listVar_nil : listVar [] = 0 := by simp [listVar]

/-- C9: every aggregation guards the empty input with `len().max(1)`:
with no qualifying surface voxel the roughness mean and variance are 0;
with no component, or an empty tunnel value set, the tunnel mean and
variance are 0; `mean_std` of an empty slice is `(0, 0)`. (The code's
standard deviation is the square root of the variance, and `√0 = 0`, so
mean and standard deviation are both 0 — never NaN.) -/
theorem claim_C9 :
    (∀ g : CAContext, roughnessValues g = [] →
      (RoughnessStats.from_context g).mean = 0 ∧
      (RoughnessStats.from_context g).var = 0) ∧
    (∀ (g : CAContext) (comps : List (List Nat)), maxByLen comps = none →
      (TunnelStats.from_context g comps).mean = 0 ∧
      (TunnelStats.from_context g comps).var = 0) ∧
    (∀ (g : CAContext) (comps : List (List Nat)) (largest : List Nat),
      maxByLen comps = some largest → tunnelValues g largest = [] →
      (TunnelStats.from_context g comps).mean = 0 ∧
      (TunnelStats.from_context g comps).var = 0) ∧
    DiversityStats.mean_std [] = (0, 0) := by
  refine ⟨?_, ?_, ?_, ?_⟩
  · intro g h
    simp [RoughnessStats.from_context, h, listMean_nil, listVar_nil]
  · intro g comps h
    simp [TunnelStats.from_context, h]
  · intro g comps largest h hv
    simp [TunnelStats.from_context, h, hv, listMean_nil, listVar_nil]
  · simp [DiversityStats.mean_std, listMean_nil, listVar_nil]

/-- C9, witness: the all-air 1×1×1 grid has no surface voxel, and the
empty component list has no largest component. -/
theorem claim_C9_witness :
    roughnessValues (allAirGrid 1 1 1) = [] ∧
    ((RoughnessStats.from_context (allAirGrid 1 1 1)).mean = 0 ∧
     (RoughnessStats.from_context (allAirGrid 1 1 1)).var = 0) ∧
    maxByLen ([] : List (List Nat)) = none ∧
    ((TunnelStats.from_context (allAirGrid 1 1 1) []).mean = 0 ∧
     (TunnelStats.from_context (allAirGrid 1 1 1) []).var = 0) :=
  ⟨by decide, claim_C9.1 _ (by decide), rfl, claim_C9.2.1 _ _ rfl⟩

/-! ## Engine stepping (C2) -/

lemma getD_map_range {α : Type} (f : Nat → α) (n i : Nat) (d : α) (h : i < n) :
    ((List.range n).map f).getD i d = f i := by
  rw [List.getD_eq_getElem?_getD, List.getElem?_map, List.getElem?_range h]
  rfl

lemma foldl_set_firstN {α : Type} (l : List α) (f : Nat → α) :
    ∀ m, m ≤ l.length →
      (List.range m).foldl (fun acc i => acc.set i (f i)) l
        = (List.range m).map f ++ l.drop m := by
  intro m
  induction m with
  | zero => simp
  | succ k ih =>
    intro hk
    rw [List.range_succ, List.foldl_append, List.map_append, ih (by omega)]
    have hklt : k < l.length := by omega
    have hlen : ((List.range k).map f).length = k := by simp
    simp only [List.foldl_cons, List.foldl_nil, List.set_append, hlen, List.map_append,
      List.map_cons, List.map_nil]
    rw [if_neg (by omega), Nat.sub_self, List.drop_eq_getElem_cons hklt, List.set_cons_zero]
    simp only [List.append_assoc, List.singleton_append]

lemma isAirCell_nextState (cfg : CAConfig) (old : CAContext) (i : Nat) :
    isAirCell (nextState cfg old i) =
      (if old.isAirIdx i then
        cfg.rule.survival.contains
          (old.count_air_neighbors (old.pos i).1 (old.pos i).2.1 (old.pos i).2.2
            cfg.neighborhood)
       else
        cfg.rule.birth.contains
          (old.count_air_neighbors (old.pos i).1 (old.pos i).2.1 (old.pos i).2.2
            cfg.neighborhood)) := by
  unfold nextState
  split <;> rename_i h
  · simp only [if_pos h]
    split <;> simp_all [isAirCell]
  · simp only [if_neg h]
    split <;> simp_all [isAirCell]

/-- C2: one engine step is a pure function of the pre-step grid — the
parallel per-cell write of `run_iteration` coincides cell-for-cell with
the sequential reference re-implementation `runIterationSeq`; each
written cell is `nextState` of the old grid (alive stays alive iff its
alive-neighbor count is in the survival set, solid becomes alive iff it
is in the birth set, with counts taken from the old grid only); and
after `run 1` the grid dimensions are unchanged. -/
theorem claim_C2 :
    (∀ e : CAEngine, e.runIterationSeq = e.run_iteration) ∧
    (∀ (e : CAEngine) (i : Nat), i < e.buffer.cells.length →
      e.run_iteration.context.cellAt i = nextState e.config e.context i ∧
      (e.run_iteration.context.isAirIdx i =
        if e.context.isAirIdx i then
          e.config.rule.survival.contains
            (e.context.count_air_neighbors (e.context.pos i).1 (e.context.pos i).2.1
              (e.context.pos i).2.2 e.config.neighborhood)
        else
          e.config.rule.birth.contains
            (e.context.count_air_neighbors (e.context.pos i).1 (e.context.pos i).2.1
              (e.context.pos i).2.2 e.config.neighborhood))) ∧
    (∀ (cfg : CAConfig) (ctx : CAContext),
      ((CAEngine.new cfg ctx).run 1).context.width = ctx.width ∧
      ((CAEngine.new cfg ctx).run 1).context.height = ctx.height ∧
      ((CAEngine.new cfg ctx).run 1).context.depth = ctx.depth ∧
      ((CAEngine.new cfg ctx).run 1).context.cells.length = ctx.cells.length) := by
  have hcell : ∀ (e : CAEngine) (i : Nat), i < e.buffer.cells.length →
      e.run_iteration.context.cellAt i = nextState e.config e.context i := by
    intro e i hi
    unfold CAEngine.run_iteration CAContext.cellAt
    exact getD_map_range (nextState e.config e.context) _ i 0 hi
  refine ⟨?_, ?_, ?_⟩
  · intro e
    unfold CAEngine.runIterationSeq CAEngine.run_iteration
    rw [foldl_set_firstN e.buffer.cells (nextState e.config e.context)
      e.buffer.cells.length (Nat.le_refl _)]
    simp
  · intro e i hi
    refine ⟨hcell e i hi, ?_⟩
    have hdef : e.run_iteration.context.isAirIdx i =
        isAirCell (e.run_iteration.context.cellAt i) := rfl
    rw [hdef, hcell e i hi, isAirCell_nextState]
  · intro cfg ctx
    show (CAEngine.run_iteration (CAEngine.new cfg ctx)).context.width = ctx.width ∧ _
    refine ⟨rfl, rfl, rfl, ?_⟩
    show ((List.range ctx.cells.length).map _).length = ctx.cells.length
    simp

/-- C2, witness: the per-cell statement instantiated at cell 0 of the
line grid with a concrete rule. -/
theorem claim_C2_witness :
    0 < (CAEngine.new sampleConfig lineGrid).buffer.cells.length ∧
    ((CAEngine.new sampleConfig lineGrid).run_iteration.context.cellAt 0 =
      nextState sampleConfig lineGrid 0) :=
  ⟨by decide, (claim_C2.2.1 (CAEngine.new sampleConfig lineGrid) 0 (by decide)).1⟩

/-! ## Surface roughness (C1) -/

lemma roughStep_foldl (g : CAContext) (x y z : Nat) (ds : List (Int × Int × Int)) :
    ∀ (a : Nat) (s : Bool),
      ds.foldl (roughStep g x y z) (a, s)
        = (a + ((ds.filterMap (g.offsetTarget x y z)).filter
             (fun t => isAirCell (g.get t.1 t.2.1 t.2.2))).length,
           s || ds.any (solidOrOOB g x y z)) := by
  induction ds with
  | nil => simp
  | cons d rest ih =>
    intro a s
    cases h : g.offsetTarget x y z d with
    | none =>
      have hstep : roughStep g x y z (a, s) d = (a, true) := by
        unfold roughStep
        rw [h]
      have hsol : solidOrOOB g x y z d = true := by
        unfold solidOrOOB
        rw [h]
      simp only [List.foldl_cons, List.filterMap_cons, List.any_cons, h, hstep, hsol, ih]
      simp
    | some t =>
      by_cases ha : isAirCell (g.get t.1 t.2.1 t.2.2)
      · have hstep : roughStep g x y z (a, s) d = (a + 1, s) := by
          unfold roughStep
          rw [h]
          simp [ha]
        have hsol : solidOrOOB g x y z d = false := by
          unfold solidOrOOB
          rw [h]
          simp [ha]
        simp only [List.foldl_cons, List.filterMap_cons, List.any_cons, h, hstep, hsol, ih]
        rw [List.filter_cons, if_pos (by simpa using ha)]
        rw [Prod.mk.injEq]
        refine ⟨by simp [Nat.add_assoc, Nat.add_comm, Nat.add_left_comm], by simp⟩
      · have hstep : roughStep g x y z (a, s) d = (a, true) := by
          unfold roughStep
          rw [h]
          simp [ha]
        have hsol : solidOrOOB g x y z d = true := by
          unfold solidOrOOB
          rw [h]
          simp [ha]
        simp only [List.foldl_cons, List.filterMap_cons, List.any_cons, h, hstep, hsol, ih]
        rw [List.filter_cons, if_neg (by simpa using ha)]
        simp

lemma roughScan_eq (g : CAContext) (x y z : Nat) :
    roughScan g x y z
      = (countAliveNbSpec g x y z (cubeOffsets 1), hasSolidOrOOBMoore g x y z) := by
  unfold roughScan countAliveNbSpec inBoundsTargets hasSolidOrOOBMoore
  rw [roughStep_foldl]
  simp

lemma filter_flatMap {α β : Type} (l : List α) (f : α → List β) (p : β → Bool) :
    (l.flatMap f).filter p = l.flatMap (fun a => (f a).filter p) := by
  induction l with
  | nil => simp
  | cons a t ih => simp [List.filter_append, ih]

lemma map_flatMap {α β γ : Type} (l : List α) (f : α → List β) (m : β → γ) :
    (l.flatMap f).map m = l.flatMap (fun a => (f a).map m) := by
  induction l with
  | nil => simp
  | cons a t ih => simp [ih]

lemma rough_row (g : CAContext) (y z : Nat) (l : List Nat) :
    l.filterMap (fun x =>
        if isAirCell (g.get x y z) then none
        else
          let as := roughScan g x y z
          if as.2 then some (1 - (as.1 : ℚ) / ((cubeOffsets 1).length : Nat)) else none)
      = (((l.map (fun x => (x, y, z))).filter (fun p =>
            ¬ isAirCell (g.get p.1 p.2.1 p.2.2) ∧
              hasSolidOrOOBMoore g p.1 p.2.1 p.2.2)).map (roughnessValueAt g)) := by
  induction l with
  | nil => simp
  | cons x t ih =>
    simp only [List.filterMap_cons, List.map_cons, List.filter_cons]
    rw [roughScan_eq]
    dsimp only
    by_cases hair : isAirCell (g.get x y z)
    · rw [if_pos hair]
      rw [if_neg (by simp [hair])]
      exact ih
    · rw [if_neg hair]
      by_cases hs : hasSolidOrOOBMoore g x y z
      · rw [if_pos hs, if_pos (by simp [hair, hs])]
        dsimp only
        rw [ih]
        congr 1
      · rw [if_neg hs, if_neg (by simp [hair, hs])]
        exact ih

/-- The roughness value list is exactly the code's surface-voxel list
(solid cells with a solid-or-out-of-bounds Moore neighbor) mapped
through `1 - aliveCount/26`. -/
lemma roughnessValues_eq (g : CAContext) :
    roughnessValues g = (surfaceVoxelsCode g).map (roughnessValueAt g) := by
  unfold roughnessValues surfaceVoxelsCode cellEnum
  rw [filter_flatMap, map_flatMap]
  apply congrArg
  funext z
  rw [filter_flatMap, map_flatMap]
  apply congrArg
  funext y
  exact rough_row g y z (List.range g.width)

/-- C1, counterexample: on the all-solid 3×3×3 grid the code collects 27
surface voxels — the interior cell, all of whose 26 neighbors are
in-bounds and solid, is **included** — while the claim's qualifying set
(solid cells with an alive-or-out-of-bounds Moore neighbor) has only the
26 boundary cells. -/
theorem claim_C1_counterexample :
    (RoughnessStats.from_context (CAContext.new 3 3 3)).count = 27 ∧
    (surfaceVoxelsClaim (CAContext.new 3 3 3)).length = 26 := by decide

/-- C1 (amended): the surface voxels are exactly the solid cells having
at least one of their 26 Moore neighbors **solid or out-of-bounds**
(equivalently: not all 26 neighbors in-bounds and alive) — so an interior
solid cell is included (with roughness 1) and a solid cell completely
surrounded by in-bounds alive neighbors is excluded; each qualifying cell
contributes `1 - aliveNeighborCount/26`, and the reported count is the
number of qualifying cells. -/
theorem claim_C1_amended (g : CAContext) :
    roughnessValues g = (surfaceVoxelsCode g).map (roughnessValueAt g) ∧
    (RoughnessStats.from_context g).count = (surfaceVoxelsCode g).length := by
  refine ⟨roughnessValues_eq g, ?_⟩
  show (roughnessValues g).length = _
  rw [roughnessValues_eq g, List.length_map]

/-! ## Derived ratios (C10) -/

/-- C10, counterexample: on the all-solid 1×1×1 grid there are no
components, and the reported island count is 0 — not the claimed
`component count − 1 = −1` (the code uses `saturating_sub`). -/
theorem claim_C10_counterexample :
    (RunResults.from_context 1 1 1 (CAContext.new 1 1 1)).n_comp = 0 ∧
    (RunResults.from_context 1 1 1 (CAContext.new 1 1 1)).n_islands = 0 ∧
    ¬ (((RunResults.from_context 1 1 1 (CAContext.new 1 1 1)).n_islands : ℤ)
        = ((RunResults.from_context 1 1 1 (CAContext.new 1 1 1)).n_comp : ℤ) - 1) := by
  refine ⟨by decide, by decide, by decide⟩

/-- C10 (amended): for every grid with at least one cell the reported
porosity is `total alive cells / total cell count`; the largest-component
ratio always equals `v_max / v_total` (the code's `v_total = 0` guard
coincides with the ratio-with-zero-denominator convention, both giving
0); and the island count is `max(component count − 1, 0)` — i.e.
`component count − 1` saturated at zero, which differs from the claim
only when there are no components. -/
theorem claim_C10_amended (ctx : CAContext) :
    (0 < ctx.numCells →
      (RunResults.from_context ctx.width ctx.height ctx.depth ctx).porosity
        = (ctx.total_air_cells : ℚ) / (ctx.numCells : ℚ)) ∧
    (RunResults.from_context ctx.width ctx.height ctx.depth ctx).lcr
      = ((RunResults.from_context ctx.width ctx.height ctx.depth ctx).v_max : ℚ)
        / ((RunResults.from_context ctx.width ctx.height ctx.depth ctx).v_total : ℚ) ∧
    ((RunResults.from_context ctx.width ctx.height ctx.depth ctx).n_islands : ℤ)
      = max (((RunResults.from_context ctx.width ctx.height ctx.depth ctx).n_comp : ℤ) - 1)
          0 := by
  refine ⟨fun _ => rfl, ?_, ?_⟩
  · show (if 0 < ctx.total_air_cells then _ else (0 : ℚ)) = _
    split_ifs with h
    · rfl
    · have h0 : ctx.total_air_cells = 0 := by omega
      show (0 : ℚ) = _ / ((ctx.total_air_cells : ℚ))
      rw [h0]
      norm_num
  · show ((ctx.connected_components.length - 1 : Nat) : ℤ)
      = max ((ctx.connected_components.length : ℤ) - 1) 0
    omega

/-- C10, witness: the amended theorem's porosity clause on the line
grid. -/
theorem claim_C10_witness :
    0 < lineGrid.numCells ∧
    (RunResults.from_context lineGrid.width lineGrid.height lineGrid.depth lineGrid).porosity
      = (lineGrid.total_air_cells : ℚ) / (lineGrid.numCells : ℚ) :=
  ⟨by decide, (claim_C10_amended lineGrid).1 (by decide)⟩

/-! ## Flood-fill correctness (C3): the neighbor-marking fold -/

/-- Characterization of the visit-and-enqueue fold of `processNb`: some
sublist `new` of fresh (unvisited, alive) indices of `l` is marked and
appended to the queue, every alive index of `l` ends marked, and each
mark flips exactly one `false` entry. -/
lemma markFold_spec (g : CAContext) (l : List Nat) :
    ∀ (v : List Bool) (q : List Nat),
    ∃ (v' : List Bool) (new : List Nat),
      l.foldl (fun vq nidx =>
          if ¬ vq.1.getD nidx true ∧ g.isAirIdx nidx then
            (vq.1.set nidx true, vq.2 ++ [nidx])
          else vq) (v, q) = (v', q ++ new) ∧
      v'.length = v.length ∧
      (∀ x, v'.getD x true = true ↔ (v.getD x true = true ∨ x ∈ new)) ∧
      new.Nodup ∧
      (∀ x ∈ new, x ∈ l ∧ g.isAirIdx x = true ∧ v.getD x true = false) ∧
      v'.count false + new.length = v.count false ∧
      (∀ x ∈ l, g.isAirIdx x = true → v'.getD x true = true) := by
  induction l with
  | nil =>
    intro v q
    exact ⟨v, [], by simp, rfl, by simp, List.nodup_nil, by simp, by simp, by simp⟩
  | cons nidx rest ih =>
    intro v q
    rw [List.foldl_cons]
    by_cases hg : ¬ v.getD nidx true ∧ g.isAirIdx nidx
    · rw [if_pos hg]
      have hlt : nidx < v.length := lt_length_of_getD_ne hg.1
      obtain ⟨v', new', heq, hlen, hiff, hnd, hmem, hcnt, hcov⟩ :=
        ih (v.set nidx true) (q ++ [nidx])
      have hset_self : (v.set nidx true).getD nidx true = true := getD_set_self v nidx true true hlt
      have hset_other : ∀ x, x ≠ nidx →
          (v.set nidx true).getD x true = v.getD x true := by
        intro x hx
        exact getD_set_ne v true true (fun h => hx h.symm)
      refine ⟨v', nidx :: new', ?_, ?_, ?_, ?_, ?_, ?_, ?_⟩
      · rw [heq, List.append_assoc]
        rfl
      · rw [hlen, List.length_set]
      · intro x
        rw [hiff x]
        constructor
        · rintro (hv | hn)
          · by_cases hx : x = nidx
            · subst hx
              exact Or.inr (by simp)
            · rw [hset_other x hx] at hv
              exact Or.inl hv
          · exact Or.inr (by simp [hn])
        · rintro (hv | hx)
          · by_cases hx : x = nidx
            · subst hx
              exact Or.inl hset_self
            · rw [hset_other x hx]
              exact Or.inl hv
          · rcases List.mem_cons.mp hx with rfl | hx'
            · exact Or.inl hset_self
            · exact Or.inr hx'
      · refine List.Nodup.cons ?_ hnd
        intro hmem'
        have := (hmem nidx hmem').2.2
        rw [hset_self] at this
        exact absurd this (by simp)
      · intro x hx
        rcases List.mem_cons.mp hx with rfl | hx'
        · refine ⟨by simp, hg.2, ?_⟩
          have := hg.1
          simpa [Bool.not_eq_true] using this
        · obtain ⟨hxl, hair, hfalse⟩ := hmem x hx'
          refine ⟨by simp [hxl], hair, ?_⟩
          by_cases hxn : x = nidx
          · subst hxn
            rw [hset_self] at hfalse
            exact absurd hfalse (by simp)
          · rwa [hset_other x hxn] at hfalse
      · rw [List.length_cons]
        have hone : (v.set nidx true).count false + 1 = v.count false :=
          count_false_set_true v (by simpa [Bool.not_eq_true] using hg.1) hlt
        omega
      · intro x hx hair
        rcases List.mem_cons.mp hx with rfl | hx'
        · rw [hiff x]
          exact Or.inl hset_self
        · exact hcov x hx' hair
    · rw [if_neg hg]
      obtain ⟨v', new', heq, hlen, hiff, hnd, hmem, hcnt, hcov⟩ := ih v q
      refine ⟨v', new', heq, hlen, hiff, hnd, ?_, hcnt, ?_⟩
      · intro x hx
        obtain ⟨hxl, hair, hfalse⟩ := hmem x hx
        exact ⟨by simp [hxl], hair, hfalse⟩
      · intro x hx hair
        rcases List.mem_cons.mp hx with rfl | hx'
        · have hv : v.getD x true = true := by
            by_contra hc
            exact hg ⟨by simpa using hc, hair⟩
          rw [hiff x]
          exact Or.inl hv
        · exact hcov x hx' hair

/-- Full characterization of one BFS flood fill, by strong induction on
the fuel: with fuel exceeding `|queue| + #unvisited` the loop drains the
queue and returns a component that extends `comp` with exactly the newly
visited cells, all alive, in-bounds, distinct, reachable from the seed
`s`, and closed (every alive neighbor of a member ends visited). -/
lemma bfsAux_spec (g : CAContext) (s : Nat) :
    ∀ (fuel : Nat) (v : List Bool) (q comp : List Nat) (vf : List Bool) (cf : List Nat),
      CAContext.bfsAux g fuel v q comp = (vf, cf) →
      q.length + v.count false < fuel →
      v.length = g.numCells →
      (∀ x ∈ comp ++ q, v.getD x true = true) →
      (comp ++ q).Nodup →
      (∀ x ∈ comp ++ q, g.isAirIdx x = true ∧ x < g.numCells) →
      (∀ x ∈ comp ++ q, reach g s x) →
      (∀ x ∈ comp, ∀ y ∈ g.neighborsIdx x, g.isAirIdx y = true → v.getD y true = true) →
      (vf.length = g.numCells ∧
       (∃ tail, cf = comp ++ tail) ∧
       (∀ x ∈ comp ++ q, x ∈ cf) ∧
       (∀ x, vf.getD x true = true ↔ (v.getD x true = true ∨ x ∈ cf)) ∧
       cf.Nodup ∧
       (∀ x ∈ cf, g.isAirIdx x = true ∧ x < g.numCells) ∧
       (∀ x ∈ cf, reach g s x) ∧
       (∀ x ∈ cf, ∀ y ∈ g.neighborsIdx x, g.isAirIdx y = true → vf.getD y true = true) ∧
       (∀ x ∈ cf, x ∈ comp ++ q ∨ v.getD x true = false)) := by
  intro fuel
  induction fuel with
  | zero =>
    intro v q comp vf cf _ hm
    omega
  | succ fuel ih =>
    intro v q comp vf cf heq hm hvlen hqm hnd hairm hreach hclos
    cases q with
    | nil =>
      rw [show CAContext.bfsAux g (fuel + 1) v [] comp = (v, comp) from rfl] at heq
      injection heq with h1 h2
      subst h1
      subst h2
      refine ⟨hvlen, ⟨[], by simp⟩, by simp, ?_, by simpa using hnd,
        fun x hx => hairm x (by simpa using hx),
        fun x hx => hreach x (by simpa using hx),
        fun x hx => hclos x hx,
        fun x hx => Or.inl (by simpa using hx)⟩
      intro x
      constructor
      · exact fun h => Or.inl h
      · rintro (h | h)
        · exact h
        · exact hqm x (by simpa using h)
    | cons i q' =>
      obtain ⟨v', new, heqf, hlen', hiff', hnd', hmem', hcnt', hcov'⟩ :=
        markFold_spec g (g.neighborsIdx i) v q'
      have hpn : g.processNb i (v, q') = (v', q' ++ new) := by
        unfold CAContext.processNb
        exact heqf
      have hstep : CAContext.bfsAux g (fuel + 1) v (i :: q') comp
          = CAContext.bfsAux g fuel (g.processNb i (v, q')).1 (g.processNb i (v, q')).2
              (comp ++ [i]) := rfl
      rw [hstep, hpn] at heq
      -- basic membership facts about the pre-state
      have hi_mem : i ∈ comp ++ i :: q' := by simp
      have hi_air : g.isAirIdx i = true ∧ i < g.numCells := hairm i hi_mem
      have hmono : ∀ x, v.getD x true = true → v'.getD x true = true := by
        intro x hx
        exact (hiff' x).mpr (Or.inl hx)
      have hnew_props : ∀ x ∈ new,
          g.isAirIdx x = true ∧ x < g.numCells ∧ v.getD x true = false ∧
            x ∈ g.neighborsIdx i := by
        intro x hx
        obtain ⟨hxl, hair, hfalse⟩ := hmem' x hx
        exact ⟨hair, g.mem_neighborsIdx_lt hxl, hfalse, hxl⟩
      have hold_not_new : ∀ x ∈ comp ++ i :: q', x ∉ new := by
        intro x hx hxnew
        have h1 := hqm x hx
        have h2 := (hnew_props x hxnew).2.2.1
        rw [h1] at h2
        exact absurd h2 (by simp)
      -- invariants for the recursive call
      have hm2 : (q' ++ new).length + v'.count false < fuel := by
        have := hcnt'
        simp only [List.length_append, List.length_cons] at hm ⊢
        omega
      have hvlen2 : v'.length = g.numCells := by rw [hlen', hvlen]
      have hqm2 : ∀ x ∈ (comp ++ [i]) ++ (q' ++ new), v'.getD x true = true := by
        intro x hx
        simp only [List.mem_append, List.mem_cons, List.not_mem_nil, or_false] at hx
        rcases hx with (hx | rfl) | hx | hx
        · exact hmono x (hqm x (by simp [hx]))
        · exact hmono x (hqm x (by simp))
        · exact hmono x (hqm x (by simp [hx]))
        · exact (hiff' x).mpr (Or.inr hx)
      have hrearr : (comp ++ [i]) ++ q' = comp ++ i :: q' := by simp
      have hnd2 : ((comp ++ [i]) ++ (q' ++ new)).Nodup := by
        have : ((comp ++ [i]) ++ (q' ++ new)) = (comp ++ i :: q') ++ new := by
          simp
        rw [this, List.nodup_append]
        exact ⟨hnd, hnd', fun x hx => hold_not_new x hx⟩
      have hairm2 : ∀ x ∈ (comp ++ [i]) ++ (q' ++ new),
          g.isAirIdx x = true ∧ x < g.numCells := by
        intro x hx
        simp only [List.mem_append, List.mem_cons, List.not_mem_nil, or_false] at hx
        rcases hx with (hx | rfl) | hx | hx
        · exact hairm x (by simp [hx])
        · exact hairm x (by simp)
        · exact hairm x (by simp [hx])
        · obtain ⟨h1, h2, -, -⟩ := hnew_props x hx
          exact ⟨h1, h2⟩
      have hreach2 : ∀ x ∈ (comp ++ [i]) ++ (q' ++ new), reach g s x := by
        intro x hx
        simp only [List.mem_append, List.mem_cons, List.not_mem_nil, or_false] at hx
        rcases hx with (hx | rfl) | hx | hx
        · exact hreach x (by simp [hx])
        · exact hreach x (by simp)
        · exact hreach x (by simp [hx])
        · obtain ⟨hair, hlt, -, hnb⟩ := hnew_props x hx
          exact Relation.ReflTransGen.tail (hreach i hi_mem)
            ⟨hi_air.2, hlt, hi_air.1, hair, hnb⟩
      have hclos2 : ∀ x ∈ comp ++ [i], ∀ y ∈ g.neighborsIdx x,
          g.isAirIdx y = true → v'.getD y true = true := by
        intro x hx y hy hyair
        simp only [List.mem_append, List.mem_cons, List.not_mem_nil, or_false] at hx
        rcases hx with hx | rfl
        · exact hmono y (hclos x hx y hy hyair)
        · exact hcov' y hy hyair
      obtain ⟨c1, ⟨tail', c2⟩, c3, c4, c5, c6, c7, c8, c9⟩ :=
        ih v' (q' ++ new) (comp ++ [i]) vf cf heq hm2 hvlen2 hqm2 hnd2 hairm2
          hreach2 hclos2
      refine ⟨c1, ⟨i :: tail', by simpa using c2⟩, ?_, ?_, c5, c6, c7, c8, ?_⟩
      · intro x hx
        simp only [List.mem_append, List.mem_cons] at hx
        rcases hx with hx | rfl | hx
        · exact c3 x (by simp [hx])
        · exact c3 x (by simp)
        · exact c3 x (by simp [hx])
      · intro x
        rw [c4 x]
        constructor
        · rintro (hx | hx)
          · rw [hiff' x] at hx
            rcases hx with hx | hx
            · exact Or.inl hx
            · exact Or.inr (c3 x (by simp [hx]))
          · exact Or.inr hx
        · rintro (hx | hx)
          · exact Or.inl (hmono x hx)
          · exact Or.inr hx
      · intro x hx
        rcases c9 x hx with hx2 | hx2
        · simp only [List.mem_append, List.mem_cons, List.not_mem_nil, or_false] at hx2
          rcases hx2 with (hx2 | rfl) | hx2 | hx2
          · exact Or.inl (by simp [hx2])
          · exact Or.inl (by simp)
          · exact Or.inl (by simp [hx2])
          · exact Or.inr (hnew_props x hx2).2.2.1
        · right
          by_contra hc
          have : v.getD x true = true := by
            cases h : v.getD x true
            · exact absurd h hc
            · rfl
          rw [hmono x this] at hx2
          exact absurd hx2 (by simp)

/-- One outer-scan step preserves the invariant, marks the scanned index
if it is alive, and never unmarks anything. -/
lemma ccStep_spec (g : CAContext) (v : List Bool) (comps : List (List Nat)) (i : Nat)
    (hinv : OuterInv g v comps) (hi : i < g.numCells) :
    OuterInv g (g.ccStep (v, comps) i).1 (g.ccStep (v, comps) i).2 ∧
    (g.isAirIdx i = true → (g.ccStep (v, comps) i).1.getD i true = true) ∧
    (∀ x, v.getD x true = true → (g.ccStep (v, comps) i).1.getD x true = true) := by
  obtain ⟨o1, o2, o3, o4, o5, o6, o7⟩ := hinv
  by_cases hg : v.getD i true ∨ ¬ g.isAirIdx i
  · have hskip : g.ccStep (v, comps) i = (v, comps) := by
      unfold CAContext.ccStep
      rw [if_pos hg]
    rw [hskip]
    refine ⟨⟨o1, o2, o3, o4, o5, o6, o7⟩, ?_, fun x hx => hx⟩
    intro hair
    rcases hg with hg | hg
    · exact hg
    · exact absurd hair hg
  · push_neg at hg
    obtain ⟨hv_i, hair_i⟩ := hg
    have hv_i' : v.getD i true = false := by
      cases h : v.getD i true
      · rfl
      · exact absurd h hv_i
    have hair_i' : g.isAirIdx i = true := by
      cases h : g.isAirIdx i
      · exact absurd h (by simpa using hair_i)
      · rfl
    have hrun : g.ccStep (v, comps) i
        = ((g.bfsAux (g.width * g.height * g.depth + 2) (v.set i true) [i] []).1,
           comps ++ [(g.bfsAux (g.width * g.height * g.depth + 2) (v.set i true) [i] []).2]) := by
      unfold CAContext.ccStep
      rw [if_neg (by push_neg; exact ⟨hv_i, hair_i⟩)]
    have hilt : i < v.length := by rw [o1]; exact hi
    have heq : g.bfsAux (g.width * g.height * g.depth + 2) (v.set i true) [i] []
        = ((g.bfsAux (g.width * g.height * g.depth + 2) (v.set i true) [i] []).1,
           (g.bfsAux (g.width * g.height * g.depth + 2) (v.set i true) [i] []).2) := rfl
    obtain ⟨c1, ⟨tail, c2⟩, c3, c4, c5, c6, c7, c8, c9⟩ :=
      bfsAux_spec g i (g.width * g.height * g.depth + 2) (v.set i true) [i] [] _ _ heq
        (by
          have hc : (v.set i true).count false ≤ (v.set i true).length :=
            List.count_le_length false (v.set i true)
          rw [List.length_set, o1] at hc
          show 1 + (v.set i true).count false < g.width * g.height * g.depth + 2
          have : g.numCells = g.width * g.height * g.depth := rfl
          omega)
        (by rw [List.length_set]; exact o1)
        (by
          intro x hx
          simp only [List.nil_append, List.mem_singleton] at hx
          rw [hx]
          exact getD_set_self v i true true hilt)
        (by simp)
        (by
          intro x hx
          simp only [List.nil_append, List.mem_singleton] at hx
          rw [hx]
          exact ⟨hair_i', hi⟩)
        (by
          intro x hx
          simp only [List.nil_append, List.mem_singleton] at hx
          rw [hx]
          exact Relation.ReflTransGen.refl)
        (by intro x hx; simp at hx)
    set vf := (g.bfsAux (g.width * g.height * g.depth + 2) (v.set i true) [i] []).1 with hvf
    set cf := (g.bfsAux (g.width * g.height * g.depth + 2) (v.set i true) [i] []).2 with hcf
    simp only [List.nil_append] at c2
    subst c2
    have hicf : i ∈ cf := c3 i (by simp)
    have hset_iff : ∀ x, (v.set i true).getD x true = true ↔ (x = i ∨ v.getD x true = true) := by
      intro x
      by_cases hx : x = i
      · subst hx
        rw [getD_set_self v x true true hilt]
        simp
      · rw [getD_set_ne v true true (fun h => hx h.symm)]
        simp [hx]
    have hcf_new : ∀ x ∈ cf, x = i ∨ v.getD x true = false := by
      intro x hx
      rcases c9 x hx with h | h
      · simp at h
        exact Or.inl h
      · by_cases hxi : x = i
        · exact Or.inl hxi
        · right
          rwa [getD_set_ne v true true (fun h' => hxi h'.symm)] at h
    have hold_not_cf : ∀ c' ∈ comps, ∀ x ∈ c', x ∉ cf := by
      intro c' hc' x hxc' hxcf
      have hxv : v.getD x true = true :=
        (o2 x (o5 c' hc' x hxc').2).mpr ⟨c', hc', hxc'⟩
      rcases hcf_new x hxcf with rfl | h
      · rw [hxv] at hv_i'
        exact absurd hv_i' (by simp)
      · rw [hxv] at h
        exact absurd h (by simp)
    rw [hrun]
    refine ⟨⟨c1, ?_, ?_, ?_, ?_, ?_, ?_⟩, ?_, ?_⟩
    · -- O2
      intro x hxn
      rw [c4 x]
      constructor
      · rintro (hx | hx)
        · rcases (hset_iff x).mp hx with rfl | hx'
          · exact ⟨cf, by simp, hicf⟩
          · obtain ⟨c', hc', hxc'⟩ := (o2 x hxn).mp hx'
            exact ⟨c', by simp [hc'], hxc'⟩
        · exact ⟨cf, by simp, hx⟩
      · rintro ⟨c', hc', hxc'⟩
        simp only [List.mem_append, List.mem_singleton] at hc'
        rcases hc' with hc' | rfl
        · exact Or.inl ((hset_iff x).mpr (Or.inr ((o2 x hxn).mpr ⟨c', hc', hxc'⟩)))
        · exact Or.inr hxc'
    · -- O3
      rw [List.pairwise_append]
      refine ⟨o3, by simp, ?_⟩
      intro c' hc' b hb
      simp only [List.mem_singleton] at hb
      subst hb
      exact hold_not_cf c' hc'
    · -- O4
      intro c hc
      simp only [List.mem_append, List.mem_singleton] at hc
      rcases hc with hc | rfl
      · exact o4 c hc
      · exact ⟨c5, fun h => by rw [h] at hicf; simp at hicf⟩
    · -- O5
      intro c hc
      simp only [List.mem_append, List.mem_singleton] at hc
      rcases hc with hc | rfl
      · exact o5 c hc
      · exact c6
    · -- O6
      intro c hc
      simp only [List.mem_append, List.mem_singleton] at hc
      rcases hc with hc | rfl
      · exact o6 c hc
      · intro x hx y hy
        exact Relation.ReflTransGen.trans (reach_symm g (c7 x hx)) (c7 y hy)
    · -- O7
      intro c hc
      simp only [List.mem_append, List.mem_singleton] at hc
      rcases hc with hc | rfl
      · exact o7 c hc
      · intro x hx y hy hyair
        have hvfy := c8 x hx y hy hyair
        rcases (c4 y).mp hvfy with hy' | hy'
        · rcases (hset_iff y).mp hy' with rfl | hy''
          · exact hicf
          · -- y is in an older component; contradiction with closure there
            obtain ⟨c', hc', hyc'⟩ := (o2 y (g.mem_neighborsIdx_lt hy)).mp hy''
            have hxlt : x < g.numCells := (c6 x hx).2
            have hxair : g.isAirIdx x = true := (c6 x hx).1
            have hxnb : x ∈ g.neighborsIdx y := g.neighborsIdx_symm hxlt hy
            have hxc' : x ∈ c' := o7 c' hc' y hyc' x hxnb hxair
            exact absurd hx (hold_not_cf c' hc' x hxc')
        · exact hy'
    · -- scanned index marked
      intro _
      rw [c4 i]
      exact Or.inr hicf
    · -- monotone
      intro x hx
      rw [c4 x]
      exact Or.inl ((hset_iff x).mpr (Or.inr hx))

/-- The outer scan maintains `OuterInv` and marks every alive scanned
index. -/
lemma ccFold_spec (g : CAContext) :
    ∀ k, k ≤ g.numCells →
      OuterInv g
        ((List.range k).foldl g.ccStep (List.replicate g.numCells false, [])).1
        ((List.range k).foldl g.ccStep (List.replicate g.numCells false, [])).2 ∧
      (∀ j, j < k → g.isAirIdx j = true →
        ((List.range k).foldl g.ccStep
          (List.replicate g.numCells false, [])).1.getD j true = true) := by
  intro k
  induction k with
  | zero =>
    intro _
    simp only [List.range_zero, List.foldl_nil]
    refine ⟨⟨by simp, ?_, by simp, by simp, by simp, by simp, by simp⟩, by omega⟩
    intro x hx
    rw [getD_replicate, if_pos hx]
    simp
  | succ k ih =>
    intro hk
    obtain ⟨hinv, hpre⟩ := ih (by omega)
    have hklt : k < g.numCells := by omega
    have hstep := ccStep_spec g
      ((List.range k).foldl g.ccStep (List.replicate g.numCells false, [])).1
      ((List.range k).foldl g.ccStep (List.replicate g.numCells false, [])).2
      k hinv hklt
    have heqf : (List.range (k + 1)).foldl g.ccStep (List.replicate g.numCells false, [])
        = g.ccStep
            (((List.range k).foldl g.ccStep (List.replicate g.numCells false, [])).1,
             ((List.range k).foldl g.ccStep (List.replicate g.numCells false, [])).2) k := by
      rw [List.range_succ, List.foldl_append]
      simp
    rw [heqf]
    refine ⟨hstep.1, ?_⟩
    intro j hj hair
    rcases Nat.lt_or_ge j k with hjk | hjk
    · exact hstep.2.2 j (hpre j hjk hair)
    · have : j = k := by omega
      subst this
      exact hstep.2.1 hair

/-- The component list of `connected_components` together with its final
visited array: the bundle of invariants plus completeness (every alive
in-bounds cell is marked). -/
lemma connected_components_inv (g : CAContext) :
    ∃ v : List Bool, OuterInv g v g.connected_components ∧
      (∀ j, j < g.numCells → g.isAirIdx j = true → v.getD j true = true) := by
  obtain ⟨hinv, hpre⟩ := ccFold_spec g g.numCells (Nat.le_refl _)
  exact ⟨_, hinv, hpre⟩

/-- Index filtering commutes with entry filtering: counting entries of
`l` satisfying `p` equals counting in-range indices whose entry
satisfies `p`. -/
lemma filter_range_getD (l : List Nat) (p : Nat → Bool) :
    ((List.range l.length).filter (fun i => p (l.getD i 0))).length
      = (l.filter p).length := by
  induction l with
  | nil => simp
  | cons a t ih =>
    rw [show (a :: t).length = t.length + 1 from rfl, List.range_succ_eq_map]
    rw [List.filter_cons, List.filter_map]
    have h2 : List.filter ((fun i => p ((a :: t).getD i 0)) ∘ Nat.succ) (List.range t.length)
        = List.filter (fun i => p (t.getD i 0)) (List.range t.length) := by
      apply List.filter_congr
      intro i _
      rfl
    rw [h2, List.filter_cons]
    by_cases hp : p a
    · rw [if_pos (show p ((a :: t).getD 0 0) = true from hp), if_pos hp]
      simp only [List.length_cons, List.length_map]
      rw [ih]
    · rw [if_neg (show ¬ p ((a :: t).getD 0 0) = true from hp), if_neg hp]
      simp only [List.length_map]
      exact ih

/-- C3: the components returned by `connected_components` are pairwise
disjoint, consist only of alive cells that are mutually reachable
through 6-connected alive paths, and their union is exactly the set of
alive cells; consequently the component sizes sum to the total number of
alive cells. -/
theorem claim_C3 (g : CAContext) (hval : g.Valid) : componentsSpec g := by
  obtain ⟨v, ⟨o1, o2, o3, o4, o5, o6, o7⟩, hpre⟩ := connected_components_inv g
  have hunion : ∀ x, (∃ c ∈ g.connected_components, x ∈ c) ↔
      (x < g.numCells ∧ g.isAirIdx x = true) := by
    intro x
    constructor
    · rintro ⟨c, hc, hxc⟩
      exact ⟨(o5 c hc x hxc).2, (o5 c hc x hxc).1⟩
    · rintro ⟨hlt, hair⟩
      exact (o2 x hlt).mp (hpre x hlt hair)
  refine ⟨o3, fun c hc x hx => ⟨(o5 c hc x hx).1, fun y hy => o6 c hc x hx y hy⟩,
    hunion, ?_⟩
  -- the sum property
  have hflat_nodup : g.connected_components.flatten.Nodup := by
    rw [List.nodup_flatten]
    refine ⟨fun c hc => (o4 c hc).1, ?_⟩
    exact o3.imp (fun {c d} h x hxc hxd => h x hxc hxd)
  have hair_nodup : ((List.range g.numCells).filter (fun i => g.isAirIdx i)).Nodup :=
    (List.nodup_range _).filter _
  have hmemiff : ∀ x, x ∈ g.connected_components.flatten ↔
      x ∈ (List.range g.numCells).filter (fun i => g.isAirIdx i) := by
    intro x
    rw [List.mem_flatten, List.mem_filter, List.mem_range]
    exact hunion x
  have hperm : g.connected_components.flatten.Perm
      ((List.range g.numCells).filter (fun i => g.isAirIdx i)) :=
    (List.perm_ext_iff_of_nodup hflat_nodup hair_nodup).mpr hmemiff
  have hlen := hperm.length_eq
  rw [List.length_flatten] at hlen
  rw [hlen]
  have := filter_range_getD g.cells (fun c => isAirCell c)
  unfold CAContext.Valid at hval
  rw [hval] at this
  exact this

/-- C3, witness: the theorem applied to the concrete line grid. -/
theorem claim_C3_witness : lineGrid.Valid ∧ componentsSpec lineGrid :=
  ⟨by decide, claim_C3 lineGrid (by decide)⟩

/-! ## Percolation (C4) -/

lemma perc_fold (g : CAContext) (axis : Axis) (l : List Nat) :
    ∀ (u w : Nat),
      l.foldl (fun (mm : Nat × Nat) idx =>
          let v := CAContext.axisCoord axis (g.pos idx)
          (min mm.1 v, max mm.2 v)) (u, w)
        = (l.foldl (fun m idx => min m (CAContext.axisCoord axis (g.pos idx))) u,
           l.foldl (fun m idx => max m (CAContext.axisCoord axis (g.pos idx))) w) := by
  induction l with
  | nil => intro u w; rfl
  | cons a t ih =>
    intro u w
    simp only [List.foldl_cons]
    exact ih _ _

lemma foldl_min_eq_zero (f : Nat → Nat) (l : List Nat) :
    ∀ u, (l.foldl (fun m idx => min m (f idx)) u = 0 ↔ (u = 0 ∨ ∃ x ∈ l, f x = 0)) := by
  induction l with
  | nil => simp
  | cons a t ih =>
    intro u
    simp only [List.foldl_cons, ih, Nat.min_eq_zero_iff, List.mem_cons]
    constructor
    · rintro ((h | h) | ⟨x, hx, hfx⟩)
      · exact Or.inl h
      · exact Or.inr ⟨a, Or.inl rfl, h⟩
      · exact Or.inr ⟨x, Or.inr hx, hfx⟩
    · rintro (h | ⟨x, (rfl | hx), hfx⟩)
      · exact Or.inl (Or.inl h)
      · exact Or.inl (Or.inr hfx)
      · exact Or.inr ⟨x, hx, hfx⟩

lemma foldl_max_le (f : Nat → Nat) (l : List Nat) (L : Nat) :
    ∀ u, (∀ x ∈ l, f x ≤ L) → u ≤ L →
      l.foldl (fun m idx => max m (f idx)) u ≤ L := by
  induction l with
  | nil => intro u _ hu; exact hu
  | cons a t ih =>
    intro u hb hu
    simp only [List.foldl_cons]
    exact ih _ (fun x hx => hb x (by simp [hx]))
      (by
        have := hb a (by simp)
        omega)

lemma foldl_max_init_le (f : Nat → Nat) (l : List Nat) :
    ∀ u, u ≤ l.foldl (fun m idx => max m (f idx)) u := by
  induction l with
  | nil => intro u; exact Nat.le_refl _
  | cons a t ih =>
    intro u
    simp only [List.foldl_cons]
    exact Nat.le_trans (Nat.le_max_left u (f a)) (ih _)

lemma foldl_max_ge_mem (f : Nat → Nat) (l : List Nat) :
    ∀ u, ∀ x ∈ l, f x ≤ l.foldl (fun m idx => max m (f idx)) u := by
  induction l with
  | nil => simp
  | cons a t ih =>
    intro u x hx
    simp only [List.foldl_cons]
    rcases List.mem_cons.mp hx with rfl | hx'
    · exact Nat.le_trans (Nat.le_max_right u (f x)) (foldl_max_init_le f t _)
    · exact ih _ x hx'

lemma foldl_max_cases (f : Nat → Nat) (l : List Nat) :
    ∀ u, l.foldl (fun m idx => max m (f idx)) u = u ∨
      ∃ x ∈ l, l.foldl (fun m idx => max m (f idx)) u = f x := by
  induction l with
  | nil => intro u; exact Or.inl rfl
  | cons a t ih =>
    intro u
    simp only [List.foldl_cons]
    rcases ih (max u (f a)) with h | ⟨x, hx, h⟩
    · rw [h]
      rcases Nat.le_total u (f a) with hle | hle
      · exact Or.inr ⟨a, by simp, Nat.max_eq_right hle⟩
      · exact Or.inl (Nat.max_eq_left hle)
    · exact Or.inr ⟨x, by simp [hx], h⟩

lemma foldl_max_eq_iff (f : Nat → Nat) (l : List Nat) (L : Nat)
    (hne : l ≠ []) (hb : ∀ x ∈ l, f x ≤ L) :
    l.foldl (fun m idx => max m (f idx)) 0 = L ↔ ∃ x ∈ l, f x = L := by
  constructor
  · intro h
    rcases foldl_max_cases f l 0 with h0 | ⟨x, hx, hfx⟩
    · rw [h0] at h
      obtain ⟨y, hy⟩ := List.exists_mem_of_ne_nil l hne
      refine ⟨y, hy, ?_⟩
      have h1 := hb y hy
      have h2 := foldl_max_ge_mem f l 0 y hy
      omega
    · exact ⟨x, hx, by rw [← hfx, h]⟩
  · rintro ⟨x, hx, hfx⟩
    have h1 := foldl_max_ge_mem f l 0 x hx
    have h2 := foldl_max_le f l L 0 hb (Nat.zero_le _)
    omega

/-- The per-component percolation test: min coordinate 0 and max
coordinate `size-1` is equivalent to containing a cell on each boundary
face, for a nonempty component of in-bounds cells. -/
lemma perc_body_iff (g : CAContext) (axis : Axis) (comp : List Nat)
    (hne : comp ≠ [])
    (hb : ∀ x ∈ comp, CAContext.axisCoord axis (g.pos x) ≤ g.axisLimit axis) :
    ((comp.foldl (fun (mm : Nat × Nat) idx =>
        let v := CAContext.axisCoord axis (g.pos idx)
        (min mm.1 v, max mm.2 v)) (CAContext.usizeMax, 0)).1 = 0 ∧
     (comp.foldl (fun (mm : Nat × Nat) idx =>
        let v := CAContext.axisCoord axis (g.pos idx)
        (min mm.1 v, max mm.2 v)) (CAContext.usizeMax, 0)).2 = g.axisLimit axis)
    ↔ ((∃ i ∈ comp, CAContext.axisCoord axis (g.pos i) = 0) ∧
       (∃ i ∈ comp, CAContext.axisCoord axis (g.pos i) = g.axisLimit axis)) := by
  rw [perc_fold]
  constructor
  · rintro ⟨h1, h2⟩
    refine ⟨?_, (foldl_max_eq_iff _ comp _ hne hb).mp h2⟩
    rcases (foldl_min_eq_zero _ comp CAContext.usizeMax).mp h1 with h | h
    · exact absurd h (by unfold CAContext.usizeMax; omega)
    · exact h
  · rintro ⟨h1, h2⟩
    refine ⟨(foldl_min_eq_zero _ comp CAContext.usizeMax).mpr (Or.inr h1),
      (foldl_max_eq_iff _ comp _ hne hb).mpr h2⟩

set_option maxRecDepth 40000 in
/-- C4: `percolates(components, axis)` is true iff some component
contains a cell with axis-coordinate 0 and a cell with axis-coordinate
`size − 1`; and the straight-line grid percolates along X only. -/
theorem claim_C4 :
    (∀ (g : CAContext) (axis : Axis),
      (g.percolates g.connected_components axis = true ↔
        ∃ c ∈ g.connected_components,
          (∃ i ∈ c, CAContext.axisCoord axis (g.pos i) = 0) ∧
          (∃ i ∈ c, CAContext.axisCoord axis (g.pos i) = g.axisLimit axis))) ∧
    (lineGrid.percolates lineGrid.connected_components Axis.X = true ∧
     lineGrid.percolates lineGrid.connected_components Axis.Y = false ∧
     lineGrid.percolates lineGrid.connected_components Axis.Z = false) := by
  constructor
  · intro g axis
    obtain ⟨v, ⟨o1, o2, o3, o4, o5, o6, o7⟩, hpre⟩ := connected_components_inv g
    have hbound : ∀ c ∈ g.connected_components, ∀ x ∈ c,
        CAContext.axisCoord axis (g.pos x) ≤ g.axisLimit axis := by
      intro c hc x hx
      obtain ⟨b1, b2, b3⟩ := g.pos_lt (o5 c hc x hx).2
      cases axis
      · show (g.pos x).1 ≤ g.width - 1
        omega
      · show (g.pos x).2.1 ≤ g.height - 1
        omega
      · show (g.pos x).2.2 ≤ g.depth - 1
        omega
    unfold CAContext.percolates
    rw [List.any_eq_true]
    constructor
    · rintro ⟨c, hc, hbody⟩
      simp only [Bool.and_eq_true, beq_iff_eq, decide_eq_true_eq] at hbody
      exact ⟨c, hc, (perc_body_iff g axis c (o4 c hc).2 (hbound c hc)).mp hbody⟩
    · rintro ⟨c, hc, hex⟩
      refine ⟨c, hc, ?_⟩
      simp only [Bool.and_eq_true, beq_iff_eq, decide_eq_true_eq]
      exact (perc_body_iff g axis c (o4 c hc).2 (hbound c hc)).mpr hex
  · exact ⟨by decide, by decide, by decide⟩

/-! ## The 5×5×5 tunnel distance transform (C6) -/

set_option maxRecDepth 1000000 in
/-- C6: on the fully-alive 5×5×5 cube, the seed cells (members with a
6-adjacent out-of-bounds or solid neighbor) are exactly the boundary
cells of the cube, which are exactly the cells at distance 1; the center
attains the maximum distance 3 over the component, which equals `1 +`
its Chebyshev distance to the boundary faces. -/
theorem claim_C6 :
    maxByLen cube5.connected_components = some cube5Largest ∧
    cube5Largest.length = 125 ∧
    (∀ i < 125, ((cube5.pos i).1 = 0 ∨ (cube5.pos i).1 = 4 ∨
        (cube5.pos i).2.1 = 0 ∨ (cube5.pos i).2.1 = 4 ∨
        (cube5.pos i).2.2 = 0 ∨ (cube5.pos i).2.2 = 4)
      ↔ (tunnelDist cube5 cube5Largest).getD i 0 = 1) ∧
    (∀ i < 125, ((cube5.pos i).1 = 0 ∨ (cube5.pos i).1 = 4 ∨
        (cube5.pos i).2.1 = 0 ∨ (cube5.pos i).2.1 = 4 ∨
        (cube5.pos i).2.2 = 0 ∨ (cube5.pos i).2.2 = 4)
      ↔ hasSurfaceNeighbor cube5 i = true) ∧
    (tunnelDist cube5 cube5Largest).getD (cube5.idx 2 2 2) 0 = 3 ∧
    (∀ i ∈ cube5Largest, (tunnelDist cube5 cube5Largest).getD i 0
        ≤ (tunnelDist cube5 cube5Largest).getD (cube5.idx 2 2 2) 0) ∧
    (tunnelDist cube5 cube5Largest).getD (cube5.idx 2 2 2) 0
        = 1 + chebyshevToBoundary cube5 2 2 2 := by decide

/-! ## Tunnel transform invariants (C7) -/

/-- Characterization of the seeding fold: the queue collects exactly the
surface members in order, and the distance field maps surface members to
1, everything else keeping its initial sentinel. -/
lemma tunnelSeedFold_spec (g : CAContext) :
    ∀ (l : List Nat) (dist : List Nat) (q : List Nat),
      (∀ x ∈ l, x < dist.length) →
      ∃ dist',
        l.foldl (fun (dq : List Nat × List Nat) idx =>
            if hasSurfaceNeighbor g idx then (dq.1.set idx 1, dq.2 ++ [idx]) else dq)
          (dist, q)
          = (dist', q ++ l.filter (fun i => hasSurfaceNeighbor g i)) ∧
        dist'.length = dist.length ∧
        (∀ x, dist'.getD x 0 =
          if x ∈ l.filter (fun i => hasSurfaceNeighbor g i) then 1 else dist.getD x 0) := by
  intro l
  induction l with
  | nil =>
    intro dist q _
    exact ⟨dist, by simp, rfl, by simp⟩
  | cons a rest ih =>
    intro dist q hb
    have halt : a < dist.length := hb a (by simp)
    by_cases hs : hasSurfaceNeighbor g a
    · have hfc : (a :: rest).filter (fun i => hasSurfaceNeighbor g i)
          = a :: rest.filter (fun i => hasSurfaceNeighbor g i) := by
        rw [List.filter_cons, if_pos (by simpa using hs)]
      rw [List.foldl_cons, if_pos hs, hfc]
      obtain ⟨dist', heq, hlen, hval⟩ := ih (dist.set a 1) (q ++ [a])
        (fun x hx => by rw [List.length_set]; exact hb x (by simp [hx]))
      refine ⟨dist', ?_, by rw [hlen, List.length_set], ?_⟩
      · rw [heq, List.append_assoc]
        rfl
      · intro x
        rw [hval x]
        by_cases hxm : x ∈ rest.filter (fun i => hasSurfaceNeighbor g i)
        · rw [if_pos hxm, if_pos (List.mem_cons_of_mem a hxm)]
        · rw [if_neg hxm]
          by_cases hxa : x = a
          · subst hxa
            rw [if_pos (List.mem_cons_self x _), getD_set_self dist x 1 0 halt]
          · rw [if_neg (by simp [hxm, hxa]), getD_set_ne dist 1 0 (fun h => hxa h.symm)]
    · have hfc : (a :: rest).filter (fun i => hasSurfaceNeighbor g i)
          = rest.filter (fun i => hasSurfaceNeighbor g i) := by
        rw [List.filter_cons, if_neg (by simpa using hs)]
      rw [List.foldl_cons, if_neg hs, hfc]
      exact ih dist q (fun x hx => hb x (by simp [hx]))

/-- The seeding pass of `tunnelSeed`, specialized. -/
lemma tunnelSeed_spec (g : CAContext) (largest : List Nat)
    (hb : ∀ x ∈ largest, x < g.cells.length) :
    (tunnelSeed g largest).2 = largest.filter (fun i => hasSurfaceNeighbor g i) ∧
    (tunnelSeed g largest).1.length = g.cells.length ∧
    (∀ x, (tunnelSeed g largest).1.getD x 0 =
      if x ∈ largest.filter (fun i => hasSurfaceNeighbor g i) then 1
      else (List.replicate g.cells.length i32Max).getD x 0) := by
  obtain ⟨dist', heq, hlen, hval⟩ := tunnelSeedFold_spec g largest
    (List.replicate g.cells.length i32Max) []
    (fun x hx => by rw [List.length_replicate]; exact hb x hx)
  unfold tunnelSeed
  rw [heq]
  exact ⟨by simp, by rw [hlen, List.length_replicate], hval⟩

/-- Characterization of the relaxation fold over one popped index's
neighbor candidates: some fresh alive indices get their distance lowered
to `dist[idx] + 1` and are enqueued; nothing else changes, nothing
increases, `dist[idx]` itself is untouched, the weighted measure does
not grow, and afterwards every alive candidate is within `dist[idx]+1`. -/
lemma relaxFold_spec (g : CAContext) (idx : Nat) :
    ∀ (l : List Nat) (dist : List Nat) (q : List Nat),
      dist.getD idx 0 + 1 ≤ i32Max →
      ∃ dist' new,
        l.foldl (fun dq nidx =>
            if g.isAirIdx nidx ∧ dq.1.getD idx 0 + 1 < dq.1.getD nidx 0 then
              (dq.1.set nidx (dq.1.getD idx 0 + 1), dq.2 ++ [nidx])
            else dq) (dist, q) = (dist', q ++ new) ∧
        dist'.length = dist.length ∧
        dist'.getD idx 0 = dist.getD idx 0 ∧
        (∀ x, dist'.getD x 0 ≤ dist.getD x 0) ∧
        (∀ x ∈ new, g.isAirIdx x = true ∧ x < dist.length ∧
          dist'.getD x 0 = dist.getD idx 0 + 1 ∧
          dist.getD idx 0 + 1 < dist.getD x 0) ∧
        (∀ x, dist'.getD x 0 < dist.getD x 0 → x ∈ new) ∧
        2 * dist'.sum + new.length ≤ 2 * dist.sum ∧
        (∀ y ∈ l, g.isAirIdx y = true → dist'.getD y 0 ≤ dist.getD idx 0 + 1) := by
  intro l
  induction l with
  | nil =>
    intro dist q _
    refine ⟨dist, [], by simp, rfl, rfl, fun x => Nat.le_refl _, by simp, ?_, by simp, by simp⟩
    intro x hx
    omega
  | cons a rest ih =>
    intro dist q hcap
    rw [List.foldl_cons]
    by_cases hg : g.isAirIdx a ∧ dist.getD idx 0 + 1 < dist.getD a 0
    · rw [if_pos hg]
      have h2 := hg.2
      have hanz : 0 < dist.getD a 0 := by omega
      have halt : a < dist.length := lt_length_of_getD_ne (show dist.getD a 0 ≠ 0 by omega)
      have hanidx : a ≠ idx := by
        intro h
        rw [h] at h2
        omega
      have hidx_same : (dist.set a (dist.getD idx 0 + 1)).getD idx 0 = dist.getD idx 0 :=
        getD_set_ne dist _ 0 hanidx
      have ha_new : (dist.set a (dist.getD idx 0 + 1)).getD a 0 = dist.getD idx 0 + 1 :=
        getD_set_self dist a _ 0 halt
      have hsum : (dist.set a (dist.getD idx 0 + 1)).sum + dist.getD a 0
          = dist.sum + (dist.getD idx 0 + 1) := sum_set_getD dist _ halt
      obtain ⟨dist', new', heq, hlen, hidx', hle, hnew, hchg, hmeas, hrel⟩ :=
        ih (dist.set a (dist.getD idx 0 + 1)) (q ++ [a]) (by rw [hidx_same]; exact hcap)
      refine ⟨dist', a :: new', ?_, by rw [hlen, List.length_set], ?_, ?_, ?_, ?_, ?_, ?_⟩
      · rw [heq, List.append_assoc]
        rfl
      · rw [hidx', hidx_same]
      · intro x
        by_cases hxa : x = a
        · subst hxa
          calc dist'.getD x 0 ≤ (dist.set x (dist.getD idx 0 + 1)).getD x 0 := hle x
            _ = dist.getD idx 0 + 1 := ha_new
            _ ≤ dist.getD x 0 := Nat.le_of_lt h2
        · calc dist'.getD x 0 ≤ (dist.set a (dist.getD idx 0 + 1)).getD x 0 := hle x
            _ = dist.getD x 0 := getD_set_ne dist _ 0 (fun h => hxa h.symm)
      · intro x hx
        rcases List.mem_cons.mp hx with rfl | hx'
        · refine ⟨hg.1, halt, ?_, h2⟩
          rcases Nat.lt_or_ge (dist'.getD x 0) (dist.getD idx 0 + 1) with hlt | hge
          · have hx' : dist'.getD x 0 < (dist.set x (dist.getD idx 0 + 1)).getD x 0 := by
              rw [ha_new]
              exact hlt
            obtain ⟨-, -, hval, -⟩ := hnew x (hchg x hx')
            rw [hval, hidx_same]
          · have h1 : dist'.getD x 0 ≤ dist.getD idx 0 + 1 := by
              have h3 := hle x
              rw [ha_new] at h3
              exact h3
            omega
        · obtain ⟨hh1, hh2, hh3, hh4⟩ := hnew x hx'
          rw [List.length_set] at hh2
          rw [hh3, hidx_same]
          refine ⟨hh1, hh2, rfl, ?_⟩
          rw [hidx_same] at hh4
          by_cases hxa : x = a
          · rw [hxa]
            exact h2
          · rwa [getD_set_ne dist _ 0 (fun h => hxa h.symm)] at hh4
      · intro x hx
        by_cases hxa : x = a
        · subst hxa
          exact List.mem_cons_self _ _
        · right
          apply hchg x
          rwa [getD_set_ne dist _ 0 (fun h => hxa h.symm)]
      · have h2 := hg.2
        have hkey : 2 * (dist.set a (dist.getD idx 0 + 1)).sum + 2 ≤ 2 * dist.sum := by
          omega
        simp only [List.length_cons]
        omega
      · intro y hy hyair
        rcases List.mem_cons.mp hy with rfl | hy'
        · have h3 := hle y
          rw [ha_new] at h3
          exact h3
        · have h3 := hrel y hy' hyair
          rwa [hidx_same] at h3
    · rw [if_neg hg]
      obtain ⟨dist', new', heq, hlen, hidx', hle, hnew, hchg, hmeas, hrel⟩ := ih dist q hcap
      refine ⟨dist', new', heq, hlen, hidx', hle, hnew, hchg, by omega, ?_⟩
      intro y hy hyair
      rcases List.mem_cons.mp hy with rfl | hy'
      · rcases Decidable.not_and_iff_or_not.mp hg with h | h
        · exact absurd hyair h
        · have h2 : dist.getD y 0 ≤ dist.getD idx 0 + 1 := by omega
          exact Nat.le_trans (hle y) h2
      · exact hrel y hy' hyair

/-- Full characterization of the relaxation loop: with sufficient fuel,
the final distance field is pointwise below the initial one, keeps every
in-bounds entry in `[1, i32::MAX]`, and at termination satisfies the
relaxed triangle inequality `dist[y] ≤ dist[x] + 1` across every alive
6-adjacency. -/
lemma tunnelBfs_spec (g : CAContext) :
    ∀ (fuel : Nat) (dist queue : List Nat),
      2 * dist.sum + queue.length < fuel →
      dist.length = g.numCells →
      (∀ x ∈ queue, x < dist.length ∧ g.isAirIdx x = true ∧ dist.getD x 0 < i32Max) →
      (∀ x, x < dist.length → 1 ≤ dist.getD x 0 ∧ dist.getD x 0 ≤ i32Max) →
      (∀ x, x < dist.length → g.isAirIdx x = true → x ∉ queue →
        ∀ y ∈ g.neighborsIdx x, g.isAirIdx y = true →
          dist.getD y 0 ≤ dist.getD x 0 + 1) →
      ((tunnelBfs g fuel (dist, queue)).length = g.numCells ∧
       (∀ x, (tunnelBfs g fuel (dist, queue)).getD x 0 ≤ dist.getD x 0) ∧
       (∀ x, x < g.numCells →
         1 ≤ (tunnelBfs g fuel (dist, queue)).getD x 0 ∧
         (tunnelBfs g fuel (dist, queue)).getD x 0 ≤ i32Max) ∧
       (∀ x, x < g.numCells → g.isAirIdx x = true →
         ∀ y ∈ g.neighborsIdx x, g.isAirIdx y = true →
           (tunnelBfs g fuel (dist, queue)).getD y 0
             ≤ (tunnelBfs g fuel (dist, queue)).getD x 0 + 1)) := by
  intro fuel
  induction fuel with
  | zero =>
    intro dist queue hm
    omega
  | succ fuel ih =>
    intro dist queue hm hdlen hq hent hesc
    cases queue with
    | nil =>
      have hred : tunnelBfs g (fuel + 1) (dist, []) = dist := rfl
      rw [hred]
      refine ⟨hdlen, fun x => Nat.le_refl _, ?_, ?_⟩
      · intro x hx
        exact hent x (by omega)
      · intro x hx hair y hy hyair
        exact hesc x (by omega) hair (by simp) y hy hyair
    | cons idx q' =>
      obtain ⟨hidx_lt, hidx_air, hidx_fin⟩ := hq idx (by simp)
      have hidx_ent := hent idx hidx_lt
      obtain ⟨dist', new, heqf, hlen', hidx', hle, hnew, hchg, hmeas, hrel⟩ :=
        relaxFold_spec g idx (g.neighborsIdx idx) dist q' (by omega)
      have hpn : tunnelRelaxNb g idx (dist, q') = (dist', q' ++ new) := by
        unfold tunnelRelaxNb
        exact heqf
      have hred : tunnelBfs g (fuel + 1) (dist, idx :: q')
          = tunnelBfs g fuel (tunnelRelaxNb g idx (dist, q')) := rfl
      rw [hred, hpn]
      -- characterize unchanged entries
      have hsame : ∀ x, x ∉ new → dist'.getD x 0 = dist.getD x 0 := by
        intro x hx
        rcases Nat.lt_or_ge (dist'.getD x 0) (dist.getD x 0) with hlt | hge
        · exact absurd (hchg x hlt) hx
        · exact Nat.le_antisymm (hle x) hge
      have hq2 : ∀ x ∈ q' ++ new, x < dist'.length ∧ g.isAirIdx x = true ∧
          dist'.getD x 0 < i32Max := by
        intro x hx
        rw [hlen']
        rcases List.mem_append.mp hx with hx' | hx'
        · obtain ⟨h1, h2, h3⟩ := hq x (by simp [hx'])
          exact ⟨h1, h2, Nat.lt_of_le_of_lt (hle x) h3⟩
        · obtain ⟨h1, h2, h3, h4⟩ := hnew x hx'
          refine ⟨h2, h1, ?_⟩
          rw [h3]
          exact Nat.lt_of_lt_of_le h4 (hent x h2).2
      have hent2 : ∀ x, x < dist'.length → 1 ≤ dist'.getD x 0 ∧ dist'.getD x 0 ≤ i32Max := by
        intro x hx
        rw [hlen'] at hx
        by_cases hxn : x ∈ new
        · obtain ⟨-, -, h3, h4⟩ := hnew x hxn
          rw [h3]
          exact ⟨by omega, by
            have := (hent x hx).2
            omega⟩
        · rw [hsame x hxn]
          exact hent x hx
      have hesc2 : ∀ x, x < dist'.length → g.isAirIdx x = true → x ∉ q' ++ new →
          ∀ y ∈ g.neighborsIdx x, g.isAirIdx y = true →
            dist'.getD y 0 ≤ dist'.getD x 0 + 1 := by
        intro x hx hair hxq y hy hyair
        rw [hlen'] at hx
        rw [List.mem_append] at hxq
        push_neg at hxq
        by_cases hxidx : x = idx
        · subst hxidx
          rw [hidx']
          exact hrel y hy hyair
        · have hxold : x ∉ idx :: q' := by
            intro hmem
            rcases List.mem_cons.mp hmem with h | h
            · exact hxidx h
            · exact hxq.1 h
          have hold := hesc x hx hair hxold y hy hyair
          rw [hsame x hxq.2]
          exact Nat.le_trans (hle y) hold
      have hm2 : 2 * dist'.sum + (q' ++ new).length < fuel := by
        rw [List.length_append]
        simp only [List.length_cons] at hm
        omega
      obtain ⟨c1, c2, c3, c4⟩ := ih dist' (q' ++ new) hm2 (by rw [hlen', hdlen]) hq2 hent2 hesc2
      exact ⟨c1, fun x => Nat.le_trans (c2 x) (hle x), c3, c4⟩

/-! ## Expansion layer: bounding breadth-first distances -/

lemma subset_expandAir (g : CAContext) (S : Finset Nat) : S ⊆ expandAir g S :=
  Finset.subset_union_left

lemma expandAir_subset_range (g : CAContext) (S : Finset Nat)
    (h : S ⊆ Finset.range g.numCells) :
    expandAir g S ⊆ Finset.range g.numCells :=
  Finset.union_subset h (Finset.filter_subset _ _)

lemma iterate_expand_subset_range (g : CAContext) (S : Finset Nat)
    (h : S ⊆ Finset.range g.numCells) :
    ∀ k, (expandAir g)^[k] S ⊆ Finset.range g.numCells := by
  intro k
  induction k with
  | zero => exact h
  | succ k ih =>
    rw [Function.iterate_succ_apply']
    exact expandAir_subset_range g _ ih

lemma subset_iterate_expand (g : CAContext) (S : Finset Nat) :
    ∀ k, S ⊆ (expandAir g)^[k] S := by
  intro k
  induction k with
  | zero => exact Finset.Subset.refl _
  | succ k ih =>
    rw [Function.iterate_succ_apply']
    exact ih.trans (subset_expandAir g _)

lemma iterate_expand_air (g : CAContext) (S : Finset Nat)
    (hair : ∀ x ∈ S, g.isAirIdx x = true) :
    ∀ k, ∀ x ∈ (expandAir g)^[k] S, g.isAirIdx x = true := by
  intro k
  induction k with
  | zero => exact hair
  | succ k ih =>
    rw [Function.iterate_succ_apply']
    intro x hx
    rcases Finset.mem_union.mp hx with hx' | hx'
    · exact ih x hx'
    · exact (Finset.mem_filter.mp hx').2.1

/-- The expansion stabilizes within `numCells + 1` rounds. -/
lemma iterate_expand_stab (g : CAContext) (S : Finset Nat)
    (h : S ⊆ Finset.range g.numCells) :
    expandAir g ((expandAir g)^[g.numCells + 1] S)
      = (expandAir g)^[g.numCells + 1] S := by
  have aux : ∀ k, (expandAir g)^[k] S = (expandAir g)^[k + 1] S ∨
      k ≤ ((expandAir g)^[k] S).card := by
    intro k
    induction k with
    | zero => exact Or.inr (Nat.zero_le _)
    | succ k ih =>
      by_cases heq : (expandAir g)^[k] S = (expandAir g)^[k + 1] S
      · left
        rw [Function.iterate_succ_apply', Function.iterate_succ_apply', ← heq]
      · rcases ih with heq' | hcard
        · exact absurd heq' heq
        · right
          have hsub : (expandAir g)^[k] S ⊆ (expandAir g)^[k + 1] S := by
            rw [Function.iterate_succ_apply']
            exact subset_expandAir g _
          have hlt : ((expandAir g)^[k] S).card < ((expandAir g)^[k + 1] S).card :=
            Finset.card_lt_card (Finset.ssubset_iff_subset_ne.mpr ⟨hsub, heq⟩)
          omega
  rcases aux (g.numCells + 1) with heq | hcard
  · rw [← Function.iterate_succ_apply' (expandAir g) (g.numCells + 1) S]
    exact heq.symm
  · have hle : ((expandAir g)^[g.numCells + 1] S).card ≤ g.numCells := by
      have := Finset.card_le_card (iterate_expand_subset_range g S h (g.numCells + 1))
      simpa using this
    omega

/-- Every cell reachable from a member of `S` lies in the stabilized
expansion. -/
lemma mem_iterate_of_reach (g : CAContext) (S : Finset Nat)
    (h : S ⊆ Finset.range g.numCells) {s x : Nat} (hs : s ∈ S)
    (hr : reach g s x) :
    x ∈ (expandAir g)^[g.numCells + 1] S := by
  induction hr with
  | refl => exact subset_iterate_expand g S (g.numCells + 1) hs
  | tail hab hbc ih =>
    rename_i b c
    rw [← iterate_expand_stab g S h]
    obtain ⟨hb_lt, hc_lt, hb_air, hc_air, hnb⟩ := hbc
    apply Finset.mem_union_right
    rw [Finset.mem_filter]
    exact ⟨Finset.mem_range.mpr hc_lt, hc_air, b, ih, hnb⟩

/-- Distances are bounded layer by layer along the expansion. -/
lemma dist_le_of_mem_iterate (g : CAContext) (S : Finset Nat) (df : List Nat)
    (hrange : S ⊆ Finset.range g.numCells)
    (hair : ∀ x ∈ S, g.isAirIdx x = true)
    (hseed : ∀ x ∈ S, df.getD x 0 ≤ 1)
    (hineq : ∀ x, x < g.numCells → g.isAirIdx x = true →
      ∀ y ∈ g.neighborsIdx x, g.isAirIdx y = true → df.getD y 0 ≤ df.getD x 0 + 1) :
    ∀ k, ∀ x ∈ (expandAir g)^[k] S, df.getD x 0 ≤ k + 1 := by
  intro k
  induction k with
  | zero => exact hseed
  | succ k ih =>
    rw [Function.iterate_succ_apply']
    intro x hx
    rcases Finset.mem_union.mp hx with hx' | hx'
    · exact Nat.le_trans (ih x hx') (by omega)
    · rw [Finset.mem_filter] at hx'
      obtain ⟨hxr, hxair, y, hymem, hnb⟩ := hx'
      have hylt : y < g.numCells :=
        Finset.mem_range.mp (iterate_expand_subset_range g S hrange k hymem)
      have hyair : g.isAirIdx y = true := iterate_expand_air g S hair k y hymem
      calc df.getD x 0 ≤ df.getD y 0 + 1 := hineq y hylt hyair x hnb hxair
        _ ≤ (k + 1) + 1 := by
          have := ih y hymem
          omega

/-! ## Largest component and surface members -/

lemma maxByLen_go :
    ∀ (l : List (List Nat)) (b : List Nat),
      ∃ m, l.foldl (fun acc c =>
          match acc with
          | none => some c
          | some b => if b.length ≤ c.length then some c else some b) (some b) = some m ∧
        (m ∈ l ∨ m = b) ∧ b.length ≤ m.length ∧ (∀ c ∈ l, c.length ≤ m.length) := by
  intro l
  induction l with
  | nil =>
    intro b
    exact ⟨b, rfl, Or.inr rfl, Nat.le_refl _, by simp⟩
  | cons c rest ih =>
    intro b
    rw [List.foldl_cons]
    by_cases hbc : b.length ≤ c.length
    · obtain ⟨m, heq, hmem, hble, hall⟩ := ih c
      rw [show (match some b with
          | none => some c
          | some b => if b.length ≤ c.length then some c else some b) = some c by
        simp [hbc]]
      refine ⟨m, heq, ?_, Nat.le_trans hbc hble, ?_⟩
      · rcases hmem with h | rfl
        · exact Or.inl (by simp [h])
        · exact Or.inl (by simp)
      · intro d hd
        rcases List.mem_cons.mp hd with rfl | hd'
        · exact hble
        · exact hall d hd'
    · obtain ⟨m, heq, hmem, hble, hall⟩ := ih b
      rw [show (match some b with
          | none => some c
          | some b => if b.length ≤ c.length then some c else some b) = some b by
        simp [hbc]]
      refine ⟨m, heq, ?_, hble, ?_⟩
      · rcases hmem with h | rfl
        · exact Or.inl (by simp [h])
        · exact Or.inr rfl
      · intro d hd
        rcases List.mem_cons.mp hd with rfl | hd'
        · omega
        · exact hall d hd'

/-- Rust's `max_by_key` on a nonempty list yields a member of maximal
length. -/
lemma maxByLen_spec (comps : List (List Nat)) (hne : comps ≠ []) :
    ∃ m, maxByLen comps = some m ∧ m ∈ comps ∧ ∀ c ∈ comps, c.length ≤ m.length := by
  cases comps with
  | nil => exact absurd rfl hne
  | cons c rest =>
    unfold maxByLen
    rw [List.foldl_cons]
    obtain ⟨m, heq, hmem, hble, hall⟩ := maxByLen_go rest c
    refine ⟨m, heq, ?_, ?_⟩
    · rcases hmem with h | rfl
      · exact by simp [h]
      · exact by simp
    · intro d hd
      rcases List.mem_cons.mp hd with rfl | hd'
      · exact hble
      · exact hall d hd'

/-- Every nonempty component has a member with an out-of-bounds or solid
6-neighbor: take a member of maximal x-coordinate and look at its `+x`
neighbor. -/
lemma surface_member_exists (g : CAContext) (c : List Nat)
    (hc : c ∈ g.connected_components) (hne : c ≠ []) :
    ∃ m ∈ c, hasSurfaceNeighbor g m = true := by
  obtain ⟨v, ⟨o1, o2, o3, o4, o5, o6, o7⟩, hpre⟩ := connected_components_inv g
  cases harg : c.argmax (fun i => (g.pos i).1) with
  | none => exact absurd (List.argmax_eq_none.mp harg) hne
  | some m =>
    have hmarg : m ∈ c.argmax (fun i => (g.pos i).1) := by rw [harg]; rfl
    have hmc : m ∈ c := List.argmax_mem hmarg
    obtain ⟨hmair, hmlt⟩ := o5 c hc m hmc
    refine ⟨m, hmc, ?_⟩
    unfold hasSurfaceNeighbor
    rw [List.any_eq_true]
    refine ⟨(1, 0, 0), by simp [CAContext.dirs6], ?_⟩
    cases ht : g.offsetTarget (g.pos m).1 (g.pos m).2.1 (g.pos m).2.2 (1, 0, 0) with
    | none => rfl
    | some t =>
      by_cases hair : isAirCell (g.get t.1 t.2.1 t.2.2)
      · -- the +x neighbor is alive, hence in the closed component: contradiction
        exfalso
        have hj : g.idx t.1 t.2.1 t.2.2 ∈ g.neighborsIdx m := by
          unfold CAContext.neighborsIdx
          rw [List.mem_filterMap]
          refine ⟨(1, 0, 0), by simp [CAContext.dirs6], ?_⟩
          rw [ht]
          rfl
        rw [CAContext.offsetTarget_eq_some_iff] at ht
        obtain ⟨e1, e2, e3, b1, b2, b3⟩ := ht
        have hjair : g.isAirIdx (g.idx t.1 t.2.1 t.2.2) = true := by
          unfold CAContext.isAirIdx CAContext.cellAt
          unfold CAContext.get at hair
          exact (by simpa [isAirCell] using hair)
        have hjc : g.idx t.1 t.2.1 t.2.2 ∈ c := o7 c hc m hmc _ hj hjair
        have hposj : g.pos (g.idx t.1 t.2.1 t.2.2) = (t.1, t.2.1, t.2.2) :=
          g.pos_idx b1 b2
        have hnotlt := List.not_lt_of_mem_argmax hjc hmarg
        rw [hposj] at hnotlt
        simp only at hnotlt e1
        omega
      · show (match some t with
            | none => true
            | some t => decide (¬ isAirCell (g.get t.1 t.2.1 t.2.2) = true)) = true
        simp [hair]

/-- C7: every nonempty component has a surface member, so the tunnel BFS
seeds are nonempty and every member of the largest component receives a
finite distance `1 ≤ d < i32::MAX`; hence the `d > 0` filter keeps
exactly the member cells and the statistics range over the whole largest
component with no sentinel surviving. (The bound `numCells + 2 <
i32::MAX` makes the `Nat` model of the `i32` distance field faithful.) -/
theorem claim_C7 (g : CAContext) (hval : g.Valid)
    (hair : 0 < g.total_air_cells) (hsmall : g.numCells + 2 < i32Max) :
    tunnelSpec g := by
  obtain ⟨v, ⟨o1, o2, o3, o4, o5, o6, o7⟩, hpre⟩ := connected_components_inv g
  have hvlen : g.cells.length = g.numCells := hval
  have htot : ((List.range g.numCells).filter (fun i => g.isAirIdx i)).length
      = g.total_air_cells := by
    have h := filter_range_getD g.cells (fun c => isAirCell c)
    rw [hvlen] at h
    exact h
  have hcomps_ne : g.connected_components ≠ [] := by
    intro hnil
    have hzero : (List.range g.numCells).filter (fun i => g.isAirIdx i) = [] := by
      rw [List.filter_eq_nil_iff]
      intro i hi
      rw [List.mem_range] at hi
      intro hiair
      obtain ⟨c, hc, -⟩ := (o2 i hi).mp (hpre i hi (by simpa using hiair))
      rw [hnil] at hc
      simp at hc
    rw [hzero] at htot
    simp at htot
    omega
  obtain ⟨largest, hmax_eq, hlmem, hlbig⟩ := maxByLen_spec _ hcomps_ne
  have hlne : largest ≠ [] := (o4 largest hlmem).2
  refine ⟨fun c hc hne => surface_member_exists g c hc hne, largest, hmax_eq, ?_⟩
  -- the seeded state
  obtain ⟨hs_q, hs_len, hs_val⟩ := tunnelSeed_spec g largest
    (fun x hx => by rw [hvlen]; exact (o5 largest hlmem x hx).2)
  have h1lt : 1 < i32Max := by omega
  have hub : ∀ y, (tunnelSeed g largest).1.getD y 0 ≤ i32Max := by
    intro y
    rw [hs_val y]
    split
    · omega
    · rw [getD_replicate]
      split <;> omega
  have hdist_eq : tunnelDist g largest
      = tunnelBfs g
          (2 * (tunnelSeed g largest).1.sum + (tunnelSeed g largest).2.length + 2)
          ((tunnelSeed g largest).1, (tunnelSeed g largest).2) := rfl
  obtain ⟨c1, c2, c3, c4⟩ := tunnelBfs_spec g
    (2 * (tunnelSeed g largest).1.sum + (tunnelSeed g largest).2.length + 2)
    (tunnelSeed g largest).1 (tunnelSeed g largest).2
    (by omega)
    (by rw [hs_len, hvlen])
    (by
      intro x hx
      rw [hs_q] at hx
      have hxl := (List.mem_filter.mp hx).1
      refine ⟨by rw [hs_len, hvlen]; exact (o5 largest hlmem x hxl).2,
        (o5 largest hlmem x hxl).1, ?_⟩
      rw [hs_val x, if_pos hx]
      exact h1lt)
    (by
      intro x hx
      rw [hs_val x]
      split
      · omega
      · rw [hs_len] at hx
        rw [getD_replicate, if_pos hx]
        omega)
    (by
      intro x hx hxair hxq y hy hyair
      rw [hs_q] at hxq
      have hx_val : (tunnelSeed g largest).1.getD x 0 = i32Max := by
        rw [hs_val x, if_neg hxq, getD_replicate, if_pos (by rwa [hs_len] at hx)]
      have := hub y
      rw [hx_val]
      omega)
  rw [← hdist_eq] at c1 c2 c3 c4
  -- seed component membership and distance bounds
  obtain ⟨s₀, hs₀mem, hs₀surf⟩ := surface_member_exists g largest hlmem hlne
  have hs₀filter : s₀ ∈ largest.filter (fun i => hasSurfaceNeighbor g i) :=
    List.mem_filter.mpr ⟨hs₀mem, hs₀surf⟩
  have hfin : ∀ m ∈ largest,
      1 ≤ (tunnelDist g largest).getD m 0 ∧
      (tunnelDist g largest).getD m 0 < i32Max := by
    intro m hm
    have hmlt : m < g.numCells := (o5 largest hlmem m hm).2
    refine ⟨(c3 m hmlt).1, ?_⟩
    have hreach : reach g s₀ m := o6 largest hlmem s₀ hs₀mem m hm
    have hrangeS : (largest.filter (fun i => hasSurfaceNeighbor g i)).toFinset
        ⊆ Finset.range g.numCells := by
      intro x hx
      rw [List.mem_toFinset, List.mem_filter] at hx
      exact Finset.mem_range.mpr (o5 largest hlmem x hx.1).2
    have hairS : ∀ x ∈ (largest.filter (fun i => hasSurfaceNeighbor g i)).toFinset,
        g.isAirIdx x = true := by
      intro x hx
      rw [List.mem_toFinset, List.mem_filter] at hx
      exact (o5 largest hlmem x hx.1).1
    have hseedS : ∀ x ∈ (largest.filter (fun i => hasSurfaceNeighbor g i)).toFinset,
        (tunnelDist g largest).getD x 0 ≤ 1 := by
      intro x hx
      rw [List.mem_toFinset] at hx
      have hd0 : (tunnelSeed g largest).1.getD x 0 = 1 := by
        rw [hs_val x, if_pos hx]
      exact Nat.le_trans (c2 x) (by rw [hd0])
    have hmemE := mem_iterate_of_reach g _ hrangeS (List.mem_toFinset.mpr hs₀filter) hreach
    have hbound := dist_le_of_mem_iterate g _ (tunnelDist g largest) hrangeS hairS hseedS
      c4 (g.numCells + 1) m hmemE
    omega
  refine ⟨hfin, ?_, ?_⟩
  · unfold tunnelValues
    rw [List.filter_eq_self.mpr]
    intro a ha
    rw [List.mem_map] at ha
    obtain ⟨i, hi, rfl⟩ := ha
    have := (hfin i hi).1
    simp only [decide_eq_true_eq]
    exact_mod_cast Nat.lt_of_lt_of_le Nat.zero_lt_one this
  · unfold tunnelValues
    rw [List.filter_eq_self.mpr, List.length_map]
    intro a ha
    rw [List.mem_map] at ha
    obtain ⟨i, hi, rfl⟩ := ha
    have := (hfin i hi).1
    simp only [decide_eq_true_eq]
    exact_mod_cast Nat.lt_of_lt_of_le Nat.zero_lt_one this

set_option maxRecDepth 1000000 in
/-- C7, witness: the theorem applied to the fully-alive 5×5×5 cube. -/
theorem claim_C7_witness :
    cube5.Valid ∧ 0 < cube5.total_air_cells ∧ cube5.numCells + 2 < i32Max ∧
    tunnelSpec cube5 :=
  ⟨by decide, by decide, by decide,
    claim_C7 cube5 (by decide) (by decide) (by decide)⟩

end Cavegen
